import Mathlib

/-!
Verification of the Random Coffee pairing module (`src/random_coffee/pairing.py`).

The development shallowly embeds the two core components:

* the history miner `fetch_recent_pairs` (mention scanning, marker filtering,
  pairwise blocking-set construction), and
* the pair constructor `create_pairs` (greedy randomized matching with the
  residual-resolution fallback), together with the `run_pairing_test` entry
  point and its precondition check.

Randomness is embedded explicitly: the ambient `random` module is modelled as
a stream `R : Nat -> Nat` of draws; `random.shuffle` is a selection shuffle
consuming one draw per position, and `random.randint(0, n-1)` is a draw
reduced mod `n`.  `createPairsWith` is the same algorithm parametrised
directly by the shuffled pair list and the raw trio-placement draw, so that
theorems can quantify over an arbitrary permutation of the allowed pairs.

Strings use ASCII case folding (`Char.toLower`), matching CPython on the
ASCII inputs relevant here.
-/

/-- A channel member as used by the pairing code: a dict with `id` and
`name` keys. -/
structure Member where
  id : String
  name : String
deriving DecidableEq

/-- Lexicographic code-point comparison of two character lists, the order
`sorted` uses on Python strings. -/
def charListLe : List Char → List Char → Bool
  | [], _ => true
  | _ :: _, [] => false
  | a :: as, b :: bs =>
      if a < b then true
      else if b < a then false
      else charListLe as bs

/-- `tuple(sorted([a, b]))`: the canonical (lexicographically sorted)
unordered key of a pair of member ids. -/
def pairKey (a b : String) : String × String :=
  if charListLe a.toList b.toList then (a, b) else (b, a)

/-- `{m["id"]: m for m in members}` as an ordered association list: keys in
first-occurrence order, each key holding the last record seen for it
(CPython dict-comprehension semantics). -/
def buildMemberById (members : List Member) : List Member :=
  members.foldl
    (fun acc m =>
      if acc.any (fun x => x.id == m.id) then
        acc.map (fun x => if x.id == m.id then m else x)
      else acc ++ [m])
    []

/-- `list(member_by_id.keys())`. -/
def memberIds (members : List Member) : List String :=
  (buildMemberById members).map (fun m => m.id)

/-- `member_by_id[i]` (total: falls back to a dummy record, never reached on
ids drawn from the dict's own keys). -/
def getMember (mbid : List Member) (i : String) : Member :=
  match mbid.find? (fun m => m.id == i) with
  | some m => m
  | none => ⟨i, ""⟩

/-- The doubly-nested loop building `allowed_pairs`: all position-ordered
pairs of distinct ids whose canonical key is not blocked. -/
def allowedPairs (ids : List String) (blocked : Finset (String × String)) :
    List (String × String) :=
  match ids with
  | [] => []
  | id1 :: rest =>
      (rest.filterMap (fun id2 =>
        if pairKey id1 id2 ∈ blocked then none else some (id1, id2)))
        ++ allowedPairs rest blocked

/-- The greedy matching loop: walk the (shuffled) pair list, committing a
pair whenever neither id is already taken. -/
def greedyGo (mbid : List Member) :
    List (String × String) → List (List Member) → List String →
    List (List Member) × List String
  | [], pairs, taken => (pairs, taken)
  | (i1, i2) :: rest, pairs, taken =>
      if i1 ∈ taken ∨ i2 ∈ taken then greedyGo mbid rest pairs taken
      else
        greedyGo mbid rest
          (pairs ++ [[getMember mbid i1, getMember mbid i2]])
          (taken ++ [i1, i2])

/-- Result of the greedy pass over a given (already shuffled) pair list:
the committed groups and the taken-id list. -/
def greedyPart (members : List Member) (perm : List (String × String)) :
    List (List Member) × List String :=
  greedyGo (buildMemberById members) perm [] []

/-- `[member_by_id[mid] for mid in member_ids if mid not in taken]`. -/
def unpairedMembers (members : List Member) (perm : List (String × String)) :
    List Member :=
  ((memberIds members).filter
      (fun i => !((greedyPart members perm).2.contains i))).map
    (getMember (buildMemberById members))

/-- The residual pairing loop `for i in range(0, len(unpaired) - 1, 2)`:
consecutive members paired off in order, an odd leftover dropped (it is
handled separately). -/
def pairOff : List Member → List (List Member)
  | a :: b :: rest => [a, b] :: pairOff rest
  | _ => []

/-- `groups[-1].append(m)` (no-op on an empty list, which the code guards
against). -/
def appendToLast (gs : List (List Member)) (m : Member) : List (List Member) :=
  match gs with
  | [] => []
  | _ => gs.dropLast ++ [gs.getLastD [] ++ [m]]

/-- `create_pairs` parametrised by the shuffled allowed-pair list `perm` and
the raw trio-placement draw `k` (the Python `random.randint(0, len(pairs)-1)`
is `k % pairs.length`).  Mirrors the source body after the shuffle. -/
def createPairsWith (members : List Member) (perm : List (String × String))
    (k : Nat) : List (List Member) :=
  if (unpairedMembers members perm).length = 1 ∧
      0 < (greedyPart members perm).1.length then
    (greedyPart members perm).1.set (k % (greedyPart members perm).1.length)
      ((greedyPart members perm).1.getD (k % (greedyPart members perm).1.length)
          [] ++ unpairedMembers members perm)
  else if 1 < (unpairedMembers members perm).length then
    if (unpairedMembers members perm).length % 2 = 1 ∧
        0 < ((greedyPart members perm).1 ++
          pairOff (unpairedMembers members perm)).length then
      appendToLast
        ((greedyPart members perm).1 ++ pairOff (unpairedMembers members perm))
        ((unpairedMembers members perm).getLastD ⟨"", ""⟩)
    else (greedyPart members perm).1 ++ pairOff (unpairedMembers members perm)
  else (greedyPart members perm).1

/-- One step of the selection shuffle modelling `random.shuffle`: draw an
index into the remainder, emit that element, recurse on the rest.  `fuel`
is the initial length, so it never runs out. -/
def randShuffleAux (R : Nat → Nat) : Nat → Nat → List (String × String) →
    List (String × String)
  | _, 0, _ => []
  | _, _ + 1, [] => []
  | idx, fuel + 1, a :: as =>
      let l := a :: as
      let i := R idx % l.length
      l.get ⟨i, Nat.mod_lt _ (Nat.succ_pos as.length)⟩ ::
        randShuffleAux R (idx + 1) fuel (l.eraseIdx i)

/-- `random.shuffle(l)` driven by the draw stream `R`, one draw per
position. -/
def randShuffle (R : Nat → Nat) (l : List (String × String)) :
    List (String × String) :=
  randShuffleAux R 0 l.length l

/-- The shuffled `allowed_pairs` list produced inside `create_pairs`. -/
def shuffledPairs (members : List Member) (blocked : Finset (String × String))
    (R : Nat → Nat) : List (String × String) :=
  randShuffle R (allowedPairs (memberIds members) blocked)

/-- `create_pairs(members, blocked_pairs)` with the random module embedded
as the draw stream `R`: shuffle the allowed pairs, run the greedy pass and
the residual-resolution policy.  The trio-placement `randint` consumes the
draw following the shuffle's. -/
def create_pairs (members : List Member) (blocked : Finset (String × String))
    (R : Nat → Nat) : List (List Member) :=
  createPairsWith members (shuffledPairs members blocked R)
    (R (allowedPairs (memberIds members) blocked).length)

/-- The residual-resolution policy of step 5 of the spec, as one standalone
map on the residual pool: pair off in order; an odd pool appends its last
member to the last residual-formed group. -/
def residualResolve (l : List Member) : List (List Member) :=
  if l.length % 2 = 0 then pairOff l
  else appendToLast (pairOff l) (l.getLastD ⟨"", ""⟩)

/-- `[A-Z0-9]`: a character allowed inside a mention id after the leading
`U` by the pattern `<@(U[A-Z0-9]+)>`. -/
def isIdChar (c : Char) : Bool :=
  ('A' ≤ c ∧ c ≤ 'Z') ∨ ('0' ≤ c ∧ c ≤ '9')

/-- `re.findall(r"<@(U[A-Z0-9]+)>", line)`: left-to-right scan; at a
position starting `<@U` take the maximal run of id characters, require a
closing `>`, emit the captured id and continue after the match; otherwise
advance one character. -/
def scanMentionsAux : Nat → List Char → List String
  | 0, _ => []
  | _ + 1, [] => []
  | fuel + 1, c :: cs =>
      if c = '<' then
        match cs with
        | '@' :: 'U' :: rest =>
            let run := rest.takeWhile isIdChar
            match rest.dropWhile isIdChar with
            | '>' :: tail =>
                if run.isEmpty then scanMentionsAux fuel cs
                else String.mk ('U' :: run) :: scanMentionsAux fuel tail
            | _ => scanMentionsAux fuel cs
        | _ => scanMentionsAux fuel cs
      else scanMentionsAux fuel cs

/-- `re.findall(r"<@(U[A-Z0-9]+)>", line)` via `scanMentionsAux`: the fuel
starts at the line's length and each step consumes one character or more,
so it never runs out. -/
def scanMentions (l : List Char) : List String :=
  scanMentionsAux l.length l

/-- ASCII lowering of a string's characters (`text.lower()`). -/
def lowerChars (s : String) : List Char :=
  s.toList.map Char.toLower

/-- Python's `needle in hay` on character lists. -/
def containsChars (needle : List Char) : List Char → Bool
  | [] => needle.isEmpty
  | c :: cs => needle.isPrefixOf (c :: cs) || containsChars needle cs

/-- The fixed marker phrases identifying a pairing announcement. -/
def coffee_indicators : List String :=
  ["coffee lovers", "random coffee", "pairings"]

/-- `any(indicator in text.lower() for indicator in coffee_indicators)`. -/
def hasMarker (text : String) : Bool :=
  coffee_indicators.any (fun ind => containsChars ind.toList (lowerChars text))

/-- The nested `for i / for j in range(i+1, ...)` loop: all canonical keys of
mention occurrences at distinct positions. -/
def allPairsOf : List String → List (String × String)
  | [] => []
  | x :: xs => xs.map (fun y => pairKey x y) ++ allPairsOf xs

/-- `text.split("\n")` on the character list: split at every newline,
keeping empty segments, one segment even for the empty string. -/
def splitLinesAux : List Char → List Char → List (List Char)
  | [], acc => [acc.reverse]
  | c :: rest, acc =>
      if c = '\n' then acc.reverse :: splitLinesAux rest []
      else splitLinesAux rest (c :: acc)

/-- `msg.get("text", "").split("\n")`. -/
def splitLines (s : String) : List (List Char) :=
  splitLinesAux s.toList []

/-- Per-line blocked-pair contribution: mentions scanned by the pattern,
pairs added only when the line yields at least two mentions. -/
def linePairs (line : List Char) : List (String × String) :=
  let mentions := scanMentions line
  if 2 ≤ mentions.length then allPairsOf mentions else []

/-- All pair keys added by the mining loop, in insertion order. -/
def minePairsList (messages : List String) : List (String × String) :=
  messages.flatMap (fun msg =>
    if hasMarker msg then
      (splitLines msg).flatMap (fun line => linePairs line)
    else [])

/-- The `blocked_pairs` set built by the mining loop of
`fetch_recent_pairs` from a batch of message texts. -/
def mineBlockedPairs (messages : List String) : Finset (String × String) :=
  (minePairsList messages).toFinset

/-- `fetch_recent_pairs`, with its two collaborators explicit: the channel
lookup result and the history-fetch outcome.  Mirrors the source: a missing
channel or an API error logs and returns the empty set; otherwise the
fetched messages are mined. -/
def fetch_recent_pairs (channel_id : Option String)
    (history : Except String (List String)) : Finset (String × String) :=
  match channel_id with
  | none => ∅
  | some _ =>
      match history with
      | Except.error _ => ∅
      | Except.ok messages => mineBlockedPairs messages

/-- The last entry of `members` carrying a given id, as a direct
right-to-left search; the record that claim C10 says the dict build
keeps per id. -/
def lastRecord (members : List Member) (i : String) : Option Member :=
  members.reverse.find? (fun m => m.id == i)

/-- Modelled from the spec (claim C2's reading of §4.1): the per-line
contribution as the image of all index pairs `i < j` into the mention list
under the canonical pair key. -/
def specLinePairs (line : List Char) : Finset (String × String) :=
  let ms := scanMentions line
  ((Finset.range ms.length ×ˢ Finset.range ms.length).filter
      (fun p => p.1 < p.2)).image
    (fun p => pairKey (ms.getD p.1 "") (ms.getD p.2 ""))

/-- Modelled from the spec (§4.1): the union, over marker-bearing messages
and over their lines, of every unordered pair among the line's mentions. -/
def specMine (messages : List String) : Finset (String × String) :=
  messages.foldr
    (fun msg acc =>
      if hasMarker msg then
        ((splitLines msg).map specLinePairs).foldr (· ∪ ·) ∅ ∪ acc
      else acc)
    ∅

/-- The token form asserted by claim C9: `<@`, a nonempty alphanumeric id,
`>`. -/
def claimTokenForm (l : List Char) : Prop :=
  ∃ pre id_ post, l = pre ++ ('<' :: '@' :: id_) ++ ('>' :: post) ∧
    id_ ≠ [] ∧ ∀ c ∈ id_, c.isAlphanum

/-- The token form actually matched by the source pattern
`<@(U[A-Z0-9]+)>`: `<@U`, a nonempty run of uppercase-alphanumeric
characters, `>`. -/
def codeTokenForm (l : List Char) : Prop :=
  ∃ pre run post, l = pre ++ ('<' :: '@' :: 'U' :: run) ++ ('>' :: post) ∧
    run ≠ [] ∧ ∀ c ∈ run, isIdChar c

/-- `format_pairs_preview`. -/
def format_pairs_preview (pairs : List (List Member)) : String :=
  let bar := String.mk (List.replicate 40 '=')
  let body := pairs.enum.map (fun p =>
    let names := String.intercalate " & " (p.2.map (fun m => m.name))
    let gtype := if p.2.length = 3 then "trio" else "pair"
    toString (p.1 + 1) ++ ". " ++ names ++ " (" ++ gtype ++ ")")
  String.intercalate "\n"
    (["Pairing Preview:", bar] ++ body ++
      [bar, "Total groups: " ++ toString pairs.length])

/-- `run_pairing_test` on the directly-provided-members path, with the
`ValueError` raise embedded as `Except.error`. -/
def run_pairing_test (members : List Member)
    (blocked : Finset (String × String)) (R : Nat → Nat) :
    Except String (List (List Member) × String) :=
  if members.length < 2 then
    Except.error
      ("Not enough members to create pairs (found " ++
        toString members.length ++ ")")
  else
    let pairs := create_pairs members blocked R
    Except.ok (pairs, format_pairs_preview pairs)

/-! ### Basic facts about the member dictionary -/

theorem buildMemberById_ids_nodup_aux (l : List Member) :
    ∀ acc : List Member, (acc.map (fun m => m.id)).Nodup →
      ((l.foldl
          (fun acc m =>
            if acc.any (fun x => x.id == m.id) then
              acc.map (fun x => if x.id == m.id then m else x)
            else acc ++ [m])
          acc).map (fun m => m.id)).Nodup := by
  induction l with
  | nil => intro acc h; simpa using h
  | cons m rest ih =>
      intro acc h
      simp only [List.foldl_cons]
      by_cases hany : acc.any (fun x => x.id == m.id)
      · rw [if_pos hany]
        apply ih
        have : (acc.map (fun x => if x.id == m.id then m else x)).map
            (fun x => x.id) = acc.map (fun x => x.id) := by
          rw [List.map_map]
          apply List.map_congr_left
          intro a _
          by_cases hid : a.id == m.id
          · simp only [Function.comp_apply, if_pos hid]
            exact (eq_of_beq hid).symm
          · simp only [Function.comp_apply, if_neg hid]
        rw [this]
        exact h
      · rw [if_neg hany]
        apply ih
        rw [List.map_append]
        rw [List.nodup_append]
        refine ⟨h, List.nodup_singleton _, ?_⟩
        intro x hx
        simp only [List.map_cons, List.map_nil, List.mem_singleton]
        intro hxm
        subst hxm
        simp only [List.mem_map] at hx
        obtain ⟨a, ha, haid⟩ := hx
        rw [List.any_eq_true] at hany
        exact hany ⟨a, ha, by simp [haid]⟩

theorem memberIds_nodup (members : List Member) : (memberIds members).Nodup := by
  unfold memberIds buildMemberById
  exact buildMemberById_ids_nodup_aux members [] (by simp)

theorem getMember_id (mbid : List Member) (i : String) :
    (getMember mbid i).id = i := by
  unfold getMember
  split
  · next m hf =>
      exact eq_of_beq (@List.find?_some Member (fun m => m.id == i) m mbid hf)
  · rfl

theorem getMember_mem (mbid : List Member) (i : String)
    (h : i ∈ mbid.map (fun m => m.id)) : getMember mbid i ∈ mbid := by
  unfold getMember
  cases hf : mbid.find? (fun m => m.id == i) with
  | none =>
      exfalso
      simp only [List.mem_map] at h
      obtain ⟨m, hm, hid⟩ := h
      have := List.find?_eq_none.mp hf m hm
      simp [hid] at this
  | some m => exact List.mem_of_find?_eq_some hf

theorem find?_self_of_nodup (mbid : List Member)
    (hn : (mbid.map (fun m => m.id)).Nodup) (m : Member) (hm : m ∈ mbid) :
    mbid.find? (fun x => x.id == m.id) = some m := by
  induction mbid with
  | nil => cases hm
  | cons a rest ih =>
      simp only [List.map_cons, List.nodup_cons] at hn
      rcases List.mem_cons.mp hm with h | h
      · subst h
        exact List.find?_cons_of_pos _ (by simp)
      · have hne : ¬((fun x : Member => x.id == m.id) a = true) := by
          intro hbeq
          exact hn.1 (by
            rw [List.mem_map]
            exact ⟨m, h, (eq_of_beq hbeq).symm⟩)
        rw [@List.find?_cons_of_neg Member (fun x => x.id == m.id) a rest hne]
        exact ih hn.2 h

theorem getMember_self_of_nodup (mbid : List Member)
    (hn : (mbid.map (fun m => m.id)).Nodup) (m : Member) (hm : m ∈ mbid) :
    getMember mbid m.id = m := by
  unfold getMember
  rw [find?_self_of_nodup mbid hn m hm]

theorem map_getMember_memberIds (members : List Member) :
    (memberIds members).map (getMember (buildMemberById members)) =
      buildMemberById members := by
  unfold memberIds
  rw [List.map_map]
  conv_rhs => rw [← List.map_id (buildMemberById members)]
  apply List.map_congr_left
  intro m hm
  exact getMember_self_of_nodup _ (memberIds_nodup members) m hm

/-! ### The allowed-pair universe -/

theorem charListLe_total :
    ∀ xs ys : List Char, charListLe xs ys = true ∨ charListLe ys xs = true := by
  intro xs
  induction xs with
  | nil => intro ys; left; rfl
  | cons x xs ih =>
      intro ys
      cases ys with
      | nil => right; rfl
      | cons y ys =>
          unfold charListLe
          by_cases hxy : x < y
          · left
            rw [if_pos hxy]
          · by_cases hyx : y < x
            · right
              rw [if_pos hyx]
            · rw [if_neg hxy, if_neg hyx, if_neg hyx, if_neg hxy]
              exact ih ys

theorem charListLe_antisymm :
    ∀ xs ys : List Char, charListLe xs ys = true → charListLe ys xs = true →
      xs = ys := by
  intro xs
  induction xs with
  | nil =>
      intro ys h1 h2
      cases ys with
      | nil => rfl
      | cons y ys => simp [charListLe] at h2
  | cons x xs ih =>
      intro ys h1 h2
      cases ys with
      | nil => simp [charListLe] at h1
      | cons y ys =>
          unfold charListLe at h1 h2
          by_cases hxy : x < y
          · rw [if_neg (lt_asymm hxy), if_pos hxy] at h2
            simp at h2
          · by_cases hyx : y < x
            · rw [if_neg hxy, if_pos hyx] at h1
              simp at h1
            · rw [if_neg hxy, if_neg hyx] at h1
              rw [if_neg hyx, if_neg hxy] at h2
              have hxyeq : x = y := le_antisymm (not_lt.mp hyx) (not_lt.mp hxy)
              rw [hxyeq, ih ys h1 h2]

theorem pairKey_comm (a b : String) : pairKey a b = pairKey b a := by
  unfold pairKey
  rcases charListLe_total a.toList b.toList with h | h
  · by_cases h2 : charListLe b.toList a.toList = true
    · have heq : a = b := by
        have := charListLe_antisymm _ _ h h2
        exact String.ext this
      rw [heq]
    · rw [if_pos h, if_neg h2]
  · by_cases h2 : charListLe a.toList b.toList = true
    · have heq : a = b := by
        have := charListLe_antisymm _ _ h2 h
        exact String.ext this
      rw [heq]
    · rw [if_neg h2, if_pos h]

theorem mem_allowedPairs {ids : List String} {blocked : Finset (String × String)}
    {p : String × String} (h : p ∈ allowedPairs ids blocked) :
    p.1 ∈ ids ∧ p.2 ∈ ids ∧ (ids.Nodup → p.1 ≠ p.2) := by
  induction ids with
  | nil => cases h
  | cons id1 rest ih =>
      unfold allowedPairs at h
      rcases List.mem_append.mp h with h1 | h1
      · rw [List.mem_filterMap] at h1
        obtain ⟨id2, hid2, heq⟩ := h1
        by_cases hbl : pairKey id1 id2 ∈ blocked
        · rw [if_pos hbl] at heq; cases heq
        · rw [if_neg hbl] at heq
          cases heq
          refine ⟨List.mem_cons_self _ _, List.mem_cons_of_mem _ hid2, ?_⟩
          intro hnd heq2
          rw [List.nodup_cons] at hnd
          exact hnd.1 (by rw [show id1 = id2 from heq2]; exact hid2)
      · obtain ⟨h1m, h2m, hne⟩ := ih h1
        exact ⟨List.mem_cons_of_mem _ h1m, List.mem_cons_of_mem _ h2m,
          fun hnd => hne (List.nodup_cons.mp hnd).2⟩

theorem allowedPairs_complete {ids : List String}
    {blocked : Finset (String × String)} {a b : String} (hab : a ≠ b)
    (ha : a ∈ ids) (hb : b ∈ ids) (hbl : pairKey a b ∉ blocked) :
    (a, b) ∈ allowedPairs ids blocked ∨ (b, a) ∈ allowedPairs ids blocked := by
  induction ids with
  | nil => cases ha
  | cons x rest ih =>
      unfold allowedPairs
      rcases List.mem_cons.mp ha with hax | hax
      · subst hax
        have hbr : b ∈ rest := by
          rcases List.mem_cons.mp hb with hbx | hbx
          · exact absurd hbx.symm hab
          · exact hbx
        left
        apply List.mem_append_left
        rw [List.mem_filterMap]
        exact ⟨b, hbr, by rw [if_neg hbl]⟩
      · rcases List.mem_cons.mp hb with hbx | hbx
        · subst hbx
          right
          apply List.mem_append_left
          rw [List.mem_filterMap]
          refine ⟨a, hax, ?_⟩
          rw [pairKey_comm] at hbl
          rw [if_neg hbl]
        · rcases ih hax hbx with h | h
          · exact Or.inl (List.mem_append_right _ h)
          · exact Or.inr (List.mem_append_right _ h)

/-! ### Greedy-pass invariants -/

theorem greedyGo_flatten (mbid : List Member) (ps : List (String × String)) :
    ∀ pairs taken, pairs.flatten = taken.map (getMember mbid) →
      (greedyGo mbid ps pairs taken).1.flatten =
        (greedyGo mbid ps pairs taken).2.map (getMember mbid) := by
  induction ps with
  | nil => intro pairs taken h; simpa [greedyGo] using h
  | cons p rest ih =>
      intro pairs taken h
      obtain ⟨i1, i2⟩ := p
      unfold greedyGo
      by_cases hc : i1 ∈ taken ∨ i2 ∈ taken
      · rw [if_pos hc]; exact ih pairs taken h
      · rw [if_neg hc]
        apply ih
        simp [h]

theorem greedyGo_sizes (mbid : List Member) (ps : List (String × String)) :
    ∀ pairs taken, (∀ g ∈ pairs, g.length = 2) →
      ∀ g ∈ (greedyGo mbid ps pairs taken).1, g.length = 2 := by
  induction ps with
  | nil => intro pairs taken h; simpa [greedyGo] using h
  | cons p rest ih =>
      intro pairs taken h
      obtain ⟨i1, i2⟩ := p
      unfold greedyGo
      by_cases hc : i1 ∈ taken ∨ i2 ∈ taken
      · rw [if_pos hc]; exact ih pairs taken h
      · rw [if_neg hc]
        apply ih
        intro g hg
        rcases List.mem_append.mp hg with hg | hg
        · exact h g hg
        · simp only [List.mem_singleton] at hg
          subst hg
          rfl

theorem greedyGo_taken_mono (mbid : List Member) (ps : List (String × String)) :
    ∀ pairs taken t, t ∈ taken → t ∈ (greedyGo mbid ps pairs taken).2 := by
  induction ps with
  | nil => intro pairs taken t h; simpa [greedyGo] using h
  | cons p rest ih =>
      intro pairs taken t h
      obtain ⟨i1, i2⟩ := p
      unfold greedyGo
      by_cases hc : i1 ∈ taken ∨ i2 ∈ taken
      · rw [if_pos hc]; exact ih pairs taken t h
      · rw [if_neg hc]
        exact ih _ _ t (List.mem_append_left _ h)

theorem greedyGo_taken_from (mbid : List Member) (ps : List (String × String)) :
    ∀ pairs taken t, t ∈ (greedyGo mbid ps pairs taken).2 →
      t ∈ taken ∨ ∃ p ∈ ps, t = p.1 ∨ t = p.2 := by
  induction ps with
  | nil => intro pairs taken t h; exact Or.inl (by simpa [greedyGo] using h)
  | cons p rest ih =>
      intro pairs taken t h
      obtain ⟨i1, i2⟩ := p
      unfold greedyGo at h
      by_cases hc : i1 ∈ taken ∨ i2 ∈ taken
      · rw [if_pos hc] at h
        rcases ih pairs taken t h with h1 | ⟨q, hq, hqe⟩
        · exact Or.inl h1
        · exact Or.inr ⟨q, List.mem_cons_of_mem _ hq, hqe⟩
      · rw [if_neg hc] at h
        rcases ih _ _ t h with h1 | ⟨q, hq, hqe⟩
        · rcases List.mem_append.mp h1 with h2 | h2
          · exact Or.inl h2
          · simp only [List.mem_cons, List.mem_singleton] at h2
            rcases h2 with h3 | h3
            · exact Or.inr ⟨(i1, i2), List.mem_cons_self _ _, Or.inl h3⟩
            · exact Or.inr ⟨(i1, i2), List.mem_cons_self _ _,
                Or.inr (by simpa using h3)⟩
        · exact Or.inr ⟨q, List.mem_cons_of_mem _ hq, hqe⟩

theorem greedyGo_taken_nodup (mbid : List Member) (ps : List (String × String)) :
    ∀ pairs taken, (∀ p ∈ ps, p.1 ≠ p.2) → taken.Nodup →
      (greedyGo mbid ps pairs taken).2.Nodup := by
  induction ps with
  | nil => intro pairs taken _ h; simpa [greedyGo] using h
  | cons p rest ih =>
      intro pairs taken hps h
      obtain ⟨i1, i2⟩ := p
      unfold greedyGo
      by_cases hc : i1 ∈ taken ∨ i2 ∈ taken
      · rw [if_pos hc]
        exact ih pairs taken (fun q hq => hps q (List.mem_cons_of_mem _ hq)) h
      · rw [if_neg hc]
        push_neg at hc
        apply ih _ _ (fun q hq => hps q (List.mem_cons_of_mem _ hq))
        rw [List.nodup_append]
        refine ⟨h, ?_, ?_⟩
        · refine List.nodup_cons.mpr ⟨?_, List.nodup_singleton _⟩
          simp only [List.mem_singleton]
          exact hps (i1, i2) (List.mem_cons_self _ _)
        · intro x hx
          simp only [List.mem_cons, List.mem_singleton, List.not_mem_nil]
          intro hx2
          rcases hx2 with h3 | h3
          · exact hc.1 (h3 ▸ hx)
          · rcases h3 with h4 | h4
            · exact hc.2 (h4 ▸ hx)
            · cases h4

theorem greedyGo_covers (mbid : List Member) (ps : List (String × String)) :
    ∀ pairs taken p, p ∈ ps →
      p.1 ∈ (greedyGo mbid ps pairs taken).2 ∨
        p.2 ∈ (greedyGo mbid ps pairs taken).2 := by
  induction ps with
  | nil => intro pairs taken p h; cases h
  | cons q rest ih =>
      intro pairs taken p h
      obtain ⟨i1, i2⟩ := q
      unfold greedyGo
      by_cases hc : i1 ∈ taken ∨ i2 ∈ taken
      · rw [if_pos hc]
        rcases List.mem_cons.mp h with h1 | h1
        · subst h1
          rcases hc with h2 | h2
          · exact Or.inl (greedyGo_taken_mono mbid rest pairs taken _ h2)
          · exact Or.inr (greedyGo_taken_mono mbid rest pairs taken _ h2)
        · exact ih pairs taken p h1
      · rw [if_neg hc]
        rcases List.mem_cons.mp h with h1 | h1
        · subst h1
          exact Or.inl (greedyGo_taken_mono mbid rest _ _ _
            (List.mem_append_right _ (List.mem_cons_self _ _)))
        · exact ih _ _ p h1

theorem greedyGo_taken_parity (mbid : List Member)
    (ps : List (String × String)) :
    ∀ pairs taken, (greedyGo mbid ps pairs taken).2.length % 2 =
      taken.length % 2 := by
  induction ps with
  | nil => intro pairs taken; simp [greedyGo]
  | cons p rest ih =>
      intro pairs taken
      obtain ⟨i1, i2⟩ := p
      unfold greedyGo
      by_cases hc : i1 ∈ taken ∨ i2 ∈ taken
      · rw [if_pos hc]; exact ih pairs taken
      · rw [if_neg hc]
        rw [ih]
        simp [Nat.add_mod]

/-! ### Residual-resolution facts -/

theorem pairOff_sizes : ∀ l : List Member, ∀ g ∈ pairOff l, g.length = 2 := by
  intro l
  induction l using pairOff.induct with
  | case1 a b rest ih =>
      intro g hg
      rcases List.mem_cons.mp hg with h | h
      · subst h; rfl
      · exact ih g h
  | case2 l h => intro g hg; rw [pairOff] at hg; cases hg; cases l <;> simp_all

theorem pairOff_flatten_even : ∀ l : List Member, l.length % 2 = 0 →
    (pairOff l).flatten = l := by
  intro l
  induction l using pairOff.induct with
  | case1 a b rest ih =>
      intro h
      simp only [List.length_cons] at h
      rw [pairOff]
      simp only [List.flatten_cons]
      rw [ih (by omega)]
      rfl
  | case2 l h =>
      intro hlen
      cases l with
      | nil => rfl
      | cons a as =>
          cases as with
          | nil => simp at hlen
          | cons b bs => exact absurd rfl (h a b bs)

theorem pairOff_flatten_odd : ∀ l : List Member, l.length % 2 = 1 →
    (pairOff l).flatten = l.dropLast := by
  intro l
  induction l using pairOff.induct with
  | case1 a b rest ih =>
      intro h
      simp only [List.length_cons] at h
      rw [pairOff]
      simp only [List.flatten_cons]
      rw [ih (by omega)]
      have hne : rest ≠ [] := by
        intro hr
        subst hr
        simp at h
      cases rest with
      | nil => exact absurd rfl hne
      | cons c cs => rfl
  | case2 l h =>
      intro hlen
      cases l with
      | nil => simp at hlen
      | cons a as =>
          cases as with
          | nil => rfl
          | cons b bs => exact absurd rfl (h a b bs)

theorem pairOff_ne_nil {l : List Member} (h : 2 ≤ l.length) : pairOff l ≠ [] := by
  cases l with
  | nil => simp at h
  | cons a as =>
      cases as with
      | nil => simp at h
      | cons b bs => rw [pairOff]; simp

theorem appendToLast_flatten {gs : List (List Member)} (h : gs ≠ [])
    (m : Member) : (appendToLast gs m).flatten = gs.flatten ++ [m] := by
  unfold appendToLast
  cases gs with
  | nil => exact absurd rfl h
  | cons g rest =>
      simp only []
      rw [List.flatten_append]
      conv_rhs => rw [← List.dropLast_concat_getLast (l := g :: rest) (by simp)]
      rw [List.flatten_append]
      simp [List.getLastD_eq_getLast?, List.getLast?_eq_getLast (g :: rest) (by simp)]

theorem appendToLast_append {as bs : List (List Member)} (h : bs ≠ [])
    (m : Member) : appendToLast (as ++ bs) m = as ++ appendToLast bs m := by
  unfold appendToLast
  cases bs with
  | nil => exact absurd rfl h
  | cons b rest =>
      cases has : as ++ b :: rest with
      | nil => simp at has
      | cons x xs =>
          rw [← has]
          simp only []
          rw [List.dropLast_append]
          simp only [List.isEmpty_cons, Bool.false_eq_true, if_false]
          rw [List.append_assoc]
          rw [List.getLastD_eq_getLast?, List.getLastD_eq_getLast?,
            List.getLast?_append]
          simp [List.getLast?_eq_getLast (b :: rest) (by simp)]

theorem appendToLast_sizes {gs : List (List Member)} (m : Member)
    (h2 : ∀ g ∈ gs, g.length = 2 ∨ g.length = 3) (hlast : ∀ hne : gs ≠ [], (gs.getLast hne).length = 2) :
    ∀ g ∈ appendToLast gs m, g.length = 2 ∨ g.length = 3 := by
  unfold appendToLast
  cases gs with
  | nil => intro g hg; cases hg
  | cons g0 rest =>
      intro g hg
      simp only [] at hg
      rcases List.mem_append.mp hg with h | h
      · exact h2 g (List.dropLast_sublist _ |>.mem h)
      · simp only [List.mem_singleton] at h
        subst h
        have hl := hlast (by simp)
        rw [List.length_append, List.getLastD_eq_getLast?,
          List.getLast?_eq_getLast (g0 :: rest) (by simp), Option.getD_some, hl]
        right
        rfl

theorem residualResolve_flatten {l : List Member} (h : 2 ≤ l.length) :
    (residualResolve l).flatten = l := by
  unfold residualResolve
  by_cases he : l.length % 2 = 0
  · rw [if_pos he]
    exact pairOff_flatten_even l he
  · rw [if_neg he]
    have ho : l.length % 2 = 1 := Nat.mod_two_eq_zero_or_one l.length |>.resolve_left he
    rw [appendToLast_flatten (pairOff_ne_nil h) _]
    rw [pairOff_flatten_odd l ho]
    have hne : l ≠ [] := by intro hl; subst hl; simp at h
    rw [List.getLastD_eq_getLast?, List.getLast?_eq_getLast l hne]
    exact List.dropLast_concat_getLast hne

theorem residualResolve_sizes {l : List Member} (h : 2 ≤ l.length) :
    ∀ g ∈ residualResolve l, g.length = 2 ∨ g.length = 3 := by
  unfold residualResolve
  by_cases he : l.length % 2 = 0
  · rw [if_pos he]
    intro g hg
    exact Or.inl (pairOff_sizes l g hg)
  · rw [if_neg he]
    apply appendToLast_sizes
    · intro g hg
      exact Or.inl (pairOff_sizes l g hg)
    · intro hne
      exact pairOff_sizes l _ (List.getLast_mem hne)

/-! ### Branch characterizations of the constructor -/

theorem createPairsWith_of_unpaired_nil (members : List Member)
    (perm : List (String × String)) (k : Nat)
    (h : unpairedMembers members perm = []) :
    createPairsWith members perm k = (greedyPart members perm).1 := by
  unfold createPairsWith
  rw [if_neg, if_neg]
  · rw [h]; simp
  · rintro ⟨h1, -⟩
    rw [h] at h1
    cases h1

theorem createPairsWith_residual (members : List Member)
    (perm : List (String × String)) (k : Nat)
    (h : 2 ≤ (unpairedMembers members perm).length) :
    createPairsWith members perm k =
      (greedyPart members perm).1 ++
        residualResolve (unpairedMembers members perm) := by
  have h1 : ¬((unpairedMembers members perm).length = 1 ∧
      0 < (greedyPart members perm).1.length) := by
    rintro ⟨h1, -⟩
    omega
  have hgt : 1 < (unpairedMembers members perm).length := h
  have hpo : pairOff (unpairedMembers members perm) ≠ [] := pairOff_ne_nil h
  unfold createPairsWith
  rw [if_neg h1, if_pos hgt]
  unfold residualResolve
  by_cases he : (unpairedMembers members perm).length % 2 = 0
  · rw [if_pos he, if_neg]
    rintro ⟨h2, -⟩
    omega
  · have ho : (unpairedMembers members perm).length % 2 = 1 :=
      (Nat.mod_two_eq_zero_or_one _).resolve_left he
    rw [if_neg he, if_pos]
    · exact appendToLast_append hpo _
    · refine ⟨ho, ?_⟩
      rw [List.length_append]
      have : 0 < (pairOff (unpairedMembers members perm)).length :=
        List.length_pos.mpr hpo
      omega

theorem flatten_set_append (pairs : List (List Member)) (us : List Member) :
    ∀ idx, idx < pairs.length →
      ((pairs.set idx (pairs.getD idx [] ++ us)).flatten).Perm
        (pairs.flatten ++ us) := by
  induction pairs with
  | nil => intro idx h; cases h
  | cons g gs ih =>
      intro idx h
      cases idx with
      | zero =>
          simp only [List.set_cons_zero, List.getD_cons_zero, List.flatten_cons]
          rw [List.append_assoc, List.append_assoc]
          exact List.Perm.append_left g List.perm_append_comm
      | succ n =>
          simp only [List.set_cons_succ, List.getD_cons_succ, List.flatten_cons]
          rw [List.append_assoc]
          exact List.Perm.append_left g (ih n (by simpa using h))

/-! ### Assembling the partition argument -/

theorem greedyPart_flatten (members : List Member)
    (perm : List (String × String)) :
    (greedyPart members perm).1.flatten =
      (greedyPart members perm).2.map (getMember (buildMemberById members)) :=
  greedyGo_flatten (buildMemberById members) perm [] [] (by simp)

theorem greedyPart_pair_ne (members : List Member)
    (blocked : Finset (String × String)) (perm : List (String × String))
    (hp : perm.Perm (allowedPairs (memberIds members) blocked)) :
    ∀ p ∈ perm, p.1 ≠ p.2 := by
  intro p hpmem
  exact (mem_allowedPairs (hp.mem_iff.mp hpmem)).2.2 (memberIds_nodup members)

theorem greedyPart_taken_nodup (members : List Member)
    (blocked : Finset (String × String)) (perm : List (String × String))
    (hp : perm.Perm (allowedPairs (memberIds members) blocked)) :
    (greedyPart members perm).2.Nodup :=
  greedyGo_taken_nodup (buildMemberById members) perm [] []
    (greedyPart_pair_ne members blocked perm hp) List.nodup_nil

theorem greedyPart_taken_mem (members : List Member)
    (blocked : Finset (String × String)) (perm : List (String × String))
    (hp : perm.Perm (allowedPairs (memberIds members) blocked)) :
    ∀ t ∈ (greedyPart members perm).2, t ∈ memberIds members := by
  intro t ht
  rcases greedyGo_taken_from (buildMemberById members) perm [] [] t ht with
    h | ⟨p, hpm, hpe⟩
  · cases h
  · have hm := mem_allowedPairs (hp.mem_iff.mp hpm)
    rcases hpe with he | he
    · rw [he]; exact hm.1
    · rw [he]; exact hm.2.1

theorem taken_perm_filter (members : List Member)
    (blocked : Finset (String × String)) (perm : List (String × String))
    (hp : perm.Perm (allowedPairs (memberIds members) blocked)) :
    (greedyPart members perm).2.Perm
      ((memberIds members).filter
        (fun i => (greedyPart members perm).2.contains i)) := by
  apply (List.perm_ext_iff_of_nodup (greedyPart_taken_nodup members blocked perm hp)
    ((memberIds_nodup members).filter _)).mpr
  intro a
  constructor
  · intro ha
    rw [List.mem_filter]
    exact ⟨greedyPart_taken_mem members blocked perm hp a ha, by simpa using ha⟩
  · intro ha
    rw [List.mem_filter] at ha
    simpa using ha.2

theorem unpairedMembers_map_id (members : List Member)
    (perm : List (String × String)) :
    (unpairedMembers members perm).map (fun m => m.id) =
      (memberIds members).filter
        (fun i => !((greedyPart members perm).2.contains i)) := by
  unfold unpairedMembers
  rw [List.map_map]
  have h1 : ((memberIds members).filter
      (fun i => !((greedyPart members perm).2.contains i))).map
        ((fun m => m.id) ∘ getMember (buildMemberById members)) =
      ((memberIds members).filter
        (fun i => !((greedyPart members perm).2.contains i))).map
        (fun i => i) := by
    apply List.map_congr_left
    intro i _
    exact getMember_id _ i
  rw [h1, List.map_id']

theorem greedy_flatten_unpaired_perm (members : List Member)
    (blocked : Finset (String × String)) (perm : List (String × String))
    (hp : perm.Perm (allowedPairs (memberIds members) blocked)) :
    ((greedyPart members perm).1.flatten ++ unpairedMembers members perm).Perm
      (buildMemberById members) := by
  rw [greedyPart_flatten members perm]
  unfold unpairedMembers
  rw [← List.map_append]
  have hperm2 : ((greedyPart members perm).2 ++
      (memberIds members).filter
        (fun i => !((greedyPart members perm).2.contains i))).Perm
      (memberIds members) := by
    have h1 := taken_perm_filter members blocked perm hp
    have h2 := List.filter_append_perm
      (fun i => (greedyPart members perm).2.contains i) (memberIds members)
    exact (h1.append (List.Perm.refl _)).trans h2
  have h3 := hperm2.map (getMember (buildMemberById members))
  rw [map_getMember_memberIds] at h3
  exact h3

theorem flatten_cases (members : List Member) (perm : List (String × String))
    (k : Nat) :
    (createPairsWith members perm k).flatten.Perm
        ((greedyPart members perm).1.flatten ++ unpairedMembers members perm) ∨
      ((greedyPart members perm).1 = [] ∧
        (unpairedMembers members perm).length = 1 ∧
        createPairsWith members perm k = []) := by
  by_cases hc1 : (unpairedMembers members perm).length = 1 ∧
      0 < (greedyPart members perm).1.length
  · left
    unfold createPairsWith
    rw [if_pos hc1]
    exact flatten_set_append (greedyPart members perm).1
      (unpairedMembers members perm) _ (Nat.mod_lt _ hc1.2)
  · by_cases hc2 : 1 < (unpairedMembers members perm).length
    · left
      rw [createPairsWith_residual members perm k hc2]
      rw [List.flatten_append, residualResolve_flatten hc2]
    · rcases Nat.lt_or_ge (unpairedMembers members perm).length 1 with h0 | h1
      · left
        have hnil : unpairedMembers members perm = [] :=
          List.length_eq_zero.mp (by omega)
        rw [createPairsWith_of_unpaired_nil members perm k hnil, hnil,
          List.append_nil]
      · have hlen1 : (unpairedMembers members perm).length = 1 := by omega
        have hpnil : (greedyPart members perm).1 = [] := by
          rcases List.eq_nil_or_concat (greedyPart members perm).1 with h | ⟨l, a, hl⟩
          · exact h
          · exfalso
            apply hc1
            refine ⟨hlen1, ?_⟩
            rw [hl]
            simp
        right
        refine ⟨hpnil, hlen1, ?_⟩
        unfold createPairsWith
        rw [if_neg hc1, if_neg (by omega : ¬1 < (unpairedMembers members perm).length)]
        exact hpnil

theorem partition_main (members : List Member)
    (blocked : Finset (String × String)) (perm : List (String × String))
    (k : Nat) (hp : perm.Perm (allowedPairs (memberIds members) blocked))
    (h2 : 2 ≤ (buildMemberById members).length) :
    (createPairsWith members perm k).flatten.Perm (buildMemberById members) := by
  rcases flatten_cases members perm k with h | ⟨hpnil, hlen1, _⟩
  · exact h.trans (greedy_flatten_unpaired_perm members blocked perm hp)
  · exfalso
    have hfl := greedyPart_flatten members perm
    rw [hpnil] at hfl
    have htaken : (greedyPart members perm).2 = [] :=
      List.map_eq_nil_iff.mp hfl.symm
    have hun : unpairedMembers members perm =
        (memberIds members).map (getMember (buildMemberById members)) := by
      unfold unpairedMembers
      rw [htaken]
      simp
    rw [hun, List.length_map] at hlen1
    unfold memberIds at hlen1
    rw [List.length_map] at hlen1
    omega

theorem createPairsWith_sizes (members : List Member)
    (perm : List (String × String)) (k : Nat) :
    ∀ g ∈ createPairsWith members perm k, g.length = 2 ∨ g.length = 3 := by
  have hg2 : ∀ g ∈ (greedyPart members perm).1, g.length = 2 :=
    greedyGo_sizes (buildMemberById members) perm [] []
      (by intro g hg; cases hg)
  by_cases hc1 : (unpairedMembers members perm).length = 1 ∧
      0 < (greedyPart members perm).1.length
  · unfold createPairsWith
    rw [if_pos hc1]
    intro g hg
    rcases List.mem_or_eq_of_mem_set hg with h | h
    · exact Or.inl (hg2 g h)
    · subst h
      rw [List.length_append]
      have hidx : k % (greedyPart members perm).1.length <
          (greedyPart members perm).1.length := Nat.mod_lt _ hc1.2
      rw [List.getD_eq_getElem _ _ hidx]
      rw [hg2 _ (List.getElem_mem hidx), hc1.1]
      right
      rfl
  · by_cases hc2 : 1 < (unpairedMembers members perm).length
    · rw [createPairsWith_residual members perm k hc2]
      intro g hg
      rcases List.mem_append.mp hg with h | h
      · exact Or.inl (hg2 g h)
      · exact residualResolve_sizes hc2 g h
    · unfold createPairsWith
      rw [if_neg hc1, if_neg hc2]
      intro g hg
      exact Or.inl (hg2 g hg)

theorem createPairsWith_ids_nodup (members : List Member)
    (blocked : Finset (String × String)) (perm : List (String × String))
    (k : Nat) (hp : perm.Perm (allowedPairs (memberIds members) blocked)) :
    ((createPairsWith members perm k).flatten.map (fun m => m.id)).Nodup := by
  rcases flatten_cases members perm k with h | ⟨-, -, hres⟩
  · apply ((h.map (fun m => m.id)).nodup_iff).mpr
    rw [List.map_append, greedyPart_flatten members perm, List.map_map]
    have e1 : (greedyPart members perm).2.map
        ((fun m => m.id) ∘ getMember (buildMemberById members)) =
        (greedyPart members perm).2.map (fun i => i) :=
      List.map_congr_left (fun i _ => getMember_id _ i)
    rw [e1, List.map_id', unpairedMembers_map_id]
    rw [List.nodup_append]
    refine ⟨greedyPart_taken_nodup members blocked perm hp,
      (memberIds_nodup members).filter _, ?_⟩
    intro x hx hx2
    rw [List.mem_filter] at hx2
    have : (greedyPart members perm).2.contains x := by simpa using hx
    rw [this] at hx2
    simp at hx2
  · rw [hres]
    simp

theorem taken_length_add_unpaired (members : List Member)
    (blocked : Finset (String × String)) (perm : List (String × String))
    (hp : perm.Perm (allowedPairs (memberIds members) blocked)) :
    (greedyPart members perm).2.length +
        (unpairedMembers members perm).length =
      (buildMemberById members).length := by
  have h1 := (taken_perm_filter members blocked perm hp).length_eq
  have h2 := (List.filter_append_perm
    (fun i => (greedyPart members perm).2.contains i)
    (memberIds members)).length_eq
  rw [List.length_append] at h2
  have h3 : (unpairedMembers members perm).length =
      ((memberIds members).filter
        (fun i => !((greedyPart members perm).2.contains i))).length := by
    unfold unpairedMembers
    rw [List.length_map]
  have h4 : (memberIds members).length = (buildMemberById members).length := by
    unfold memberIds
    rw [List.length_map]
  omega

theorem greedyPart_taken_even (members : List Member)
    (perm : List (String × String)) :
    (greedyPart members perm).2.length % 2 = 0 := by
  have := greedyGo_taken_parity (buildMemberById members) perm [] []
  simpa using this

theorem exists_two_distinct {l : List String} (hn : l.Nodup)
    (h : 2 ≤ l.length) : ∃ a b, a ≠ b ∧ a ∈ l ∧ b ∈ l := by
  cases l with
  | nil => simp at h
  | cons a as =>
      cases as with
      | nil => simp at h
      | cons b bs =>
          refine ⟨a, b, ?_, List.mem_cons_self _ _,
            List.mem_cons_of_mem _ (List.mem_cons_self _ _)⟩
          intro hab
          rw [List.nodup_cons] at hn
          exact hn.1 (hab ▸ List.mem_cons_self b bs)

theorem contains_iff_mem {l : List String} {a : String} :
    l.contains a = true ↔ a ∈ l := by
  simp

theorem unpaired_le_one_of_empty_blocked (members : List Member)
    (perm : List (String × String))
    (hp : perm.Perm (allowedPairs (memberIds members) ∅)) :
    (unpairedMembers members perm).length ≤ 1 := by
  by_contra hgt
  push_neg at hgt
  have hflen : 2 ≤ ((memberIds members).filter
      (fun i => !((greedyPart members perm).2.contains i))).length := by
    have h3 : (unpairedMembers members perm).length =
        ((memberIds members).filter
          (fun i => !((greedyPart members perm).2.contains i))).length := by
      unfold unpairedMembers
      rw [List.length_map]
    omega
  obtain ⟨a, b, hab, ha, hb⟩ :=
    exists_two_distinct ((memberIds_nodup members).filter
      (fun i => !((greedyPart members perm).2.contains i))) hflen
  have ha2 := List.mem_filter.mp ha
  have hb2 := List.mem_filter.mp hb
  have hana : a ∉ (greedyPart members perm).2 := by
    intro hin
    have hc := contains_iff_mem.mpr hin
    have := ha2.2
    rw [hc] at this
    simp at this
  have hbnb : b ∉ (greedyPart members perm).2 := by
    intro hin
    have hc := contains_iff_mem.mpr hin
    have := hb2.2
    rw [hc] at this
    simp at this
  rcases allowedPairs_complete hab ha2.1 hb2.1 (Finset.not_mem_empty _) with
    hm | hm
  · rcases greedyGo_covers (buildMemberById members) perm [] [] (a, b)
        (hp.mem_iff.mpr hm) with h | h
    · exact hana h
    · exact hbnb h
  · rcases greedyGo_covers (buildMemberById members) perm [] [] (b, a)
        (hp.mem_iff.mpr hm) with h | h
    · exact hbnb h
    · exact hana h

theorem buildMemberById_eq_self_aux (l : List Member) :
    ∀ acc : List Member, ((acc ++ l).map (fun m => m.id)).Nodup →
      l.foldl
          (fun acc m =>
            if acc.any (fun x => x.id == m.id) then
              acc.map (fun x => if x.id == m.id then m else x)
            else acc ++ [m])
          acc = acc ++ l := by
  induction l with
  | nil => intro acc _; simp
  | cons m rest ih =>
      intro acc h
      simp only [List.foldl_cons]
      have hnot : ¬acc.any (fun x => x.id == m.id) = true := by
        intro hany
        rw [List.any_eq_true] at hany
        obtain ⟨x, hx, hxid⟩ := hany
        have hxid2 : x.id = m.id := eq_of_beq hxid
        rw [List.map_append, List.nodup_append] at h
        have hmm : m.id ∈ (m :: rest).map (fun m => m.id) := by simp
        exact h.2.2 (by
          rw [List.mem_map]
          exact ⟨x, hx, hxid2⟩) hmm
      rw [if_neg hnot]
      have := ih (acc ++ [m]) (by simpa using h)
      rw [this]
      simp

theorem buildMemberById_eq_self (members : List Member)
    (h : (members.map (fun m => m.id)).Nodup) :
    buildMemberById members = members := by
  unfold buildMemberById
  have := buildMemberById_eq_self_aux members [] (by simpa using h)
  simpa using this

theorem flatten_length_two (gs : List (List Member))
    (h : ∀ g ∈ gs, g.length = 2) : gs.flatten.length = 2 * gs.length := by
  induction gs with
  | nil => rfl
  | cons g rest ih =>
      rw [List.flatten_cons, List.length_append,
        h g (List.mem_cons_self _ _), ih (fun g hg => h g (List.mem_cons_of_mem _ hg)),
        List.length_cons]
      ring

/-! ### The shuffle produces a permutation -/

theorem get_cons_eraseIdx_perm :
    ∀ (l : List (String × String)) (i : Nat) (h : i < l.length),
      (l.get ⟨i, h⟩ :: l.eraseIdx i).Perm l := by
  intro l
  induction l with
  | nil => intro i h; cases h
  | cons a as ih =>
      intro i h
      cases i with
      | zero => exact List.Perm.refl _
      | succ n =>
          have hn : n < as.length := by simpa using h
          have step := ih n hn
          have e1 : (a :: as).get ⟨n + 1, h⟩ :: (a :: as).eraseIdx (n + 1)
              = as.get ⟨n, hn⟩ :: a :: as.eraseIdx n := rfl
          rw [e1]
          exact (List.Perm.swap a _ _).trans (step.cons a)

theorem randShuffleAux_perm (R : Nat → Nat) :
    ∀ (fuel : Nat) (idx : Nat) (l : List (String × String)),
      l.length ≤ fuel → (randShuffleAux R idx fuel l).Perm l := by
  intro fuel
  induction fuel with
  | zero =>
      intro idx l h
      have : l = [] := List.length_eq_zero.mp (Nat.le_zero.mp h)
      subst this
      exact List.Perm.refl _
  | succ n ih =>
      intro idx l h
      cases l with
      | nil => exact List.Perm.refl _
      | cons a as =>
          unfold randShuffleAux
          have hlt : R idx % (a :: as).length < (a :: as).length :=
            Nat.mod_lt _ (Nat.succ_pos as.length)
          have herase : ((a :: as).eraseIdx
              (R idx % (a :: as).length)).length ≤ n := by
            rw [List.length_eraseIdx]
            rw [if_pos hlt]
            simp only [List.length_cons] at h ⊢
            omega
          exact (List.Perm.cons _ (ih (idx + 1) _ herase)).trans
            (get_cons_eraseIdx_perm (a :: as) _ hlt)

theorem randShuffle_perm (R : Nat → Nat) (l : List (String × String)) :
    (randShuffle R l).Perm l :=
  randShuffleAux_perm R l.length 0 l (Nat.le_refl _)

theorem shuffledPairs_perm (members : List Member)
    (blocked : Finset (String × String)) (R : Nat → Nat) :
    (shuffledPairs members blocked R).Perm
      (allowedPairs (memberIds members) blocked) :=
  randShuffle_perm R (allowedPairs (memberIds members) blocked)

/-! ### Characterizing the mention scanner -/

theorem cs_shape (cs : List Char) :
    (∃ rest, cs = '@' :: 'U' :: rest) ∨
      (∀ rest, cs = '@' :: 'U' :: rest → False) := by
  rcases cs with - | ⟨c1, cs1⟩
  · right
    intro rest h
    cases h
  rcases cs1 with - | ⟨c2, rest⟩
  · right
    intro rest h
    injection h with e1 e2
    cases e2
  by_cases h1 : c1 = '@'
  · by_cases h2 : c2 = 'U'
    · subst h1
      subst h2
      exact Or.inl ⟨rest, rfl⟩
    · right
      intro r h
      injection h with e1 e2
      injection e2 with e3 e4
      exact h2 e3
  · right
    intro r h
    injection h with e1 e2
    exact h1 e1

theorem scanMentionsAux_nil : ∀ f : Nat, scanMentionsAux f [] = [] := by
  intro f
  cases f with
  | zero => rfl
  | succ n => rfl

theorem scanMentionsAux_success (f : Nat) (rest tail : List Char)
    (hd : List.dropWhile isIdChar rest = '>' :: tail)
    (hr : ¬(List.takeWhile isIdChar rest).isEmpty = true) :
    scanMentionsAux (f + 1) ('<' :: '@' :: 'U' :: rest) =
      String.mk ('U' :: List.takeWhile isIdChar rest) ::
        scanMentionsAux f tail := by
  rw [scanMentionsAux.eq_3, if_pos rfl]
  split
  · rename_i heq
    rw [hd] at heq
    injection heq with h1 h2
    subst h2
    simp [hr]
  · rename_i x heq
    exact absurd hd (heq tail)

theorem scanMentionsAux_emptyRun (f : Nat) (rest tail : List Char)
    (hd : List.dropWhile isIdChar rest = '>' :: tail)
    (hr : (List.takeWhile isIdChar rest).isEmpty = true) :
    scanMentionsAux (f + 1) ('<' :: '@' :: 'U' :: rest) =
      scanMentionsAux f ('@' :: 'U' :: rest) := by
  rw [scanMentionsAux.eq_3, if_pos rfl]
  split
  · simp [hr]
  · rfl

theorem scanMentionsAux_noClose (f : Nat) (rest : List Char)
    (hd : ∀ tail, List.dropWhile isIdChar rest ≠ '>' :: tail) :
    scanMentionsAux (f + 1) ('<' :: '@' :: 'U' :: rest) =
      scanMentionsAux f ('@' :: 'U' :: rest) := by
  rw [scanMentionsAux.eq_3, if_pos rfl]
  split
  · rename_i heq
    exact absurd heq (hd _)
  · rfl

theorem scanMentionsAux_cons_ne (f : Nat) (c : Char) (rest : List Char)
    (hc : c ≠ '<') :
    scanMentionsAux (f + 1) (c :: '@' :: 'U' :: rest) =
      scanMentionsAux f ('@' :: 'U' :: rest) := by
  rw [scanMentionsAux.eq_3, if_neg hc]

theorem scanMentionsAux_cons_notAU (f : Nat) (c : Char) (cs : List Char)
    (h : ∀ rest, cs = '@' :: 'U' :: rest → False) :
    scanMentionsAux (f + 1) (c :: cs) = scanMentionsAux f cs := by
  rw [scanMentionsAux.eq_4 f c cs h]
  split <;> rfl

theorem scanMentionsAux_congr :
    ∀ (f1 f2 : Nat) (l : List Char), l.length ≤ f1 → l.length ≤ f2 →
      scanMentionsAux f1 l = scanMentionsAux f2 l := by
  intro f1
  induction f1 with
  | zero =>
      intro f2 l h1 h2
      have : l = [] := List.length_eq_zero.mp (Nat.le_zero.mp h1)
      subst this
      rw [scanMentionsAux_nil, scanMentionsAux_nil]
  | succ n ih =>
      intro f2 l h1 h2
      cases l with
      | nil => rw [scanMentionsAux_nil, scanMentionsAux_nil]
      | cons c cs =>
          cases f2 with
          | zero => simp at h2
          | succ n2 =>
              have hcs1 : cs.length ≤ n := by
                simp only [List.length_cons] at h1
                omega
              have hcs2 : cs.length ≤ n2 := by
                simp only [List.length_cons] at h2
                omega
              rcases cs_shape cs with ⟨rest, hrst⟩ | hnsh
              · subst hrst
                by_cases hc : c = '<'
                · subst hc
                  cases hdw : List.dropWhile isIdChar rest with
                  | nil =>
                      have hno : ∀ tail, List.dropWhile isIdChar rest ≠
                          '>' :: tail := by
                        intro t h
                        rw [h] at hdw
                        cases hdw
                      rw [scanMentionsAux_noClose n rest hno,
                        scanMentionsAux_noClose n2 rest hno]
                      exact ih n2 _ hcs1 hcs2
                  | cons d ds =>
                      by_cases hgt : d = '>'
                      · subst hgt
                        by_cases hre : (List.takeWhile isIdChar
                            rest).isEmpty = true
                        · rw [scanMentionsAux_emptyRun n rest ds hdw hre,
                            scanMentionsAux_emptyRun n2 rest ds hdw hre]
                          exact ih n2 _ hcs1 hcs2
                        · rw [scanMentionsAux_success n rest ds hdw hre,
                            scanMentionsAux_success n2 rest ds hdw hre]
                          have hds : ds.length ≤ rest.length - 1 := by
                            have hdl : (List.dropWhile isIdChar
                                rest).length ≤ rest.length :=
                              (List.dropWhile_sublist isIdChar).length_le
                            rw [hdw] at hdl
                            simp only [List.length_cons] at hdl
                            omega
                          have hrest : rest.length + 2 ≤ n + 1 := by
                            simp only [List.length_cons] at h1
                            omega
                          have hrest2 : rest.length + 2 ≤ n2 + 1 := by
                            simp only [List.length_cons] at h2
                            omega
                          rw [ih n2 ds (by omega) (by omega)]
                      · have hno : ∀ tail, List.dropWhile isIdChar rest ≠
                            '>' :: tail := by
                          intro t h
                          rw [h] at hdw
                          injection hdw with e1 e2
                          exact hgt e1.symm
                        rw [scanMentionsAux_noClose n rest hno,
                          scanMentionsAux_noClose n2 rest hno]
                        exact ih n2 _ hcs1 hcs2
                · rw [scanMentionsAux_cons_ne n c rest hc,
                    scanMentionsAux_cons_ne n2 c rest hc]
                  exact ih n2 _ hcs1 hcs2
              · rw [scanMentionsAux_cons_notAU n c cs hnsh,
                  scanMentionsAux_cons_notAU n2 c cs hnsh]
                exact ih n2 _ hcs1 hcs2

theorem scanMentions_nil : scanMentions [] = [] := rfl

theorem scanMentions_success (rest tail : List Char)
    (hd : List.dropWhile isIdChar rest = '>' :: tail)
    (hr : ¬(List.takeWhile isIdChar rest).isEmpty = true) :
    scanMentions ('<' :: '@' :: 'U' :: rest) =
      String.mk ('U' :: List.takeWhile isIdChar rest) :: scanMentions tail := by
  show scanMentionsAux (rest.length + 2 + 1) ('<' :: '@' :: 'U' :: rest) =
    String.mk ('U' :: List.takeWhile isIdChar rest) ::
      scanMentionsAux tail.length tail
  rw [scanMentionsAux_success (rest.length + 2) rest tail hd hr]
  have hds : tail.length ≤ rest.length - 1 := by
    have hdl : (List.dropWhile isIdChar rest).length ≤ rest.length :=
      (List.dropWhile_sublist isIdChar).length_le
    rw [hd] at hdl
    simp only [List.length_cons] at hdl
    omega
  rw [scanMentionsAux_congr (rest.length + 2) tail.length tail (by omega)
    (Nat.le_refl _)]

theorem scanMentions_emptyRun (rest tail : List Char)
    (hd : List.dropWhile isIdChar rest = '>' :: tail)
    (hr : (List.takeWhile isIdChar rest).isEmpty = true) :
    scanMentions ('<' :: '@' :: 'U' :: rest) =
      scanMentions ('@' :: 'U' :: rest) := by
  show scanMentionsAux (rest.length + 2 + 1) ('<' :: '@' :: 'U' :: rest) =
    scanMentionsAux (rest.length + 2) ('@' :: 'U' :: rest)
  rw [scanMentionsAux_emptyRun (rest.length + 2) rest tail hd hr]

theorem scanMentions_noClose (rest : List Char)
    (hd : ∀ tail, List.dropWhile isIdChar rest ≠ '>' :: tail) :
    scanMentions ('<' :: '@' :: 'U' :: rest) =
      scanMentions ('@' :: 'U' :: rest) := by
  show scanMentionsAux (rest.length + 2 + 1) ('<' :: '@' :: 'U' :: rest) =
    scanMentionsAux (rest.length + 2) ('@' :: 'U' :: rest)
  rw [scanMentionsAux_noClose (rest.length + 2) rest hd]

theorem scanMentions_cons_ne (c : Char) (rest : List Char) (hc : c ≠ '<') :
    scanMentions (c :: '@' :: 'U' :: rest) =
      scanMentions ('@' :: 'U' :: rest) := by
  show scanMentionsAux (rest.length + 2 + 1) (c :: '@' :: 'U' :: rest) =
    scanMentionsAux (rest.length + 2) ('@' :: 'U' :: rest)
  rw [scanMentionsAux_cons_ne (rest.length + 2) c rest hc]

theorem scanMentions_cons_notAU (c : Char) (cs : List Char)
    (h : ∀ rest, cs = '@' :: 'U' :: rest → False) :
    scanMentions (c :: cs) = scanMentions cs := by
  show scanMentionsAux (cs.length + 1) (c :: cs) =
    scanMentionsAux cs.length cs
  rw [scanMentionsAux_cons_notAU cs.length c cs h]

theorem takeWhile_id_run (run post : List Char) (h : ∀ c ∈ run, isIdChar c) :
    (run ++ '>' :: post).takeWhile isIdChar = run ∧
      (run ++ '>' :: post).dropWhile isIdChar = '>' :: post := by
  induction run with
  | nil =>
      have hgt : isIdChar '>' = false := rfl
      constructor
      · simp [List.takeWhile_cons, hgt]
      · simp [List.dropWhile_cons, hgt]
  | cons c cs ih =>
      have hc : isIdChar c = true := h c (List.mem_cons_self _ _)
      have ihr := ih (fun d hd => h d (List.mem_cons_of_mem _ hd))
      constructor
      · simp only [List.cons_append, List.takeWhile_cons, hc, if_true]
        rw [ihr.1]
      · simp only [List.cons_append, List.dropWhile_cons, hc, if_true]
        exact ihr.2

theorem codeTokenForm_cons (c : Char) {cs : List Char} (h : codeTokenForm cs) :
    codeTokenForm (c :: cs) := by
  obtain ⟨pre, run, post, he, hne, hall⟩ := h
  exact ⟨c :: pre, run, post, by rw [he]; rfl, hne, hall⟩

theorem scan_lt_AU_cases (rest : List Char) :
    scanMentions ('<' :: '@' :: 'U' :: rest) =
        scanMentions ('@' :: 'U' :: rest) ∨
      scanMentions ('<' :: '@' :: 'U' :: rest) ≠ [] := by
  cases hdw : List.dropWhile isIdChar rest with
  | nil =>
      left
      exact scanMentions_noClose rest (by
        intro t h
        rw [h] at hdw
        cases hdw)
  | cons d ds =>
      by_cases hgt : d = '>'
      · subst hgt
        by_cases hre : (List.takeWhile isIdChar rest).isEmpty = true
        · left
          exact scanMentions_emptyRun rest ds hdw hre
        · right
          rw [scanMentions_success rest ds hdw hre]
          simp
      · left
        apply scanMentions_noClose
        intro t h
        rw [h] at hdw
        injection hdw with e1 e2
        exact hgt e1.symm

theorem scanMentions_ne_nil_of_token :
    ∀ (n : Nat) (l : List Char), l.length ≤ n → codeTokenForm l →
      scanMentions l ≠ [] := by
  intro n
  induction n with
  | zero =>
      intro l hl ht
      obtain ⟨pre, run, post, he, hne, hall⟩ := ht
      subst he
      simp at hl
  | succ n ih =>
      intro l hl ht
      obtain ⟨pre, run, post, he, hne, hall⟩ := ht
      cases pre with
      | nil =>
          simp only [List.nil_append, List.append_assoc, List.cons_append] at he
          subst he
          have htw := takeWhile_id_run run post hall
          have hre : ¬(List.takeWhile isIdChar
              (run ++ '>' :: post)).isEmpty = true := by
            rw [htw.1]
            cases run with
            | nil => exact absurd rfl hne
            | cons a as => simp
          rw [scanMentions_success (run ++ '>' :: post) post htw.2 hre]
          simp
      | cons c pre2 =>
          have hcs : codeTokenForm
              (pre2 ++ ('<' :: '@' :: 'U' :: run) ++ ('>' :: post)) :=
            ⟨pre2, run, post, rfl, hne, hall⟩
          have he2 : l = c :: (pre2 ++ ('<' :: '@' :: 'U' :: run) ++
              ('>' :: post)) := by
            rw [he]
            rfl
          have hlen : (pre2 ++ ('<' :: '@' :: 'U' :: run) ++
              ('>' :: post)).length ≤ n := by
            have := hl
            rw [he2] at this
            simp only [List.length_cons] at this
            omega
          rw [he2]
          rcases cs_shape (pre2 ++ ('<' :: '@' :: 'U' :: run) ++
              ('>' :: post)) with ⟨rest, hrst⟩ | hnsh
          · by_cases hc : c = '<'
            · subst hc
              rw [hrst]
              rcases scan_lt_AU_cases rest with heq | hne2
              · rw [heq, ← hrst]
                exact ih _ hlen hcs
              · exact hne2
            · rw [hrst, scanMentions_cons_ne c rest hc, ← hrst]
              exact ih _ hlen hcs
          · rw [scanMentions_cons_notAU c _ hnsh]
            exact ih _ hlen hcs

theorem token_of_scanMentions_ne_nil :
    ∀ (n : Nat) (l : List Char), l.length ≤ n → scanMentions l ≠ [] →
      codeTokenForm l := by
  intro n
  induction n with
  | zero =>
      intro l hl hs
      have : l = [] := List.length_eq_zero.mp (Nat.le_zero.mp hl)
      subst this
      rw [scanMentions_nil] at hs
      exact absurd rfl hs
  | succ n ih =>
      intro l hl hs
      cases l with
      | nil =>
          rw [scanMentions_nil] at hs
          exact absurd rfl hs
      | cons c cs =>
          have hlen : cs.length ≤ n := by
            simp only [List.length_cons] at hl
            omega
          rcases cs_shape cs with ⟨rest, hrst⟩ | hnsh
          · by_cases hc : c = '<'
            · subst hc
              subst hrst
              cases hdw : List.dropWhile isIdChar rest with
              | nil =>
                  rw [scanMentions_noClose rest (by
                    intro t h
                    rw [h] at hdw
                    cases hdw)] at hs
                  exact codeTokenForm_cons _ (ih _ hlen hs)
              | cons d ds =>
                  by_cases hgt : d = '>'
                  · subst hgt
                    by_cases hre : (List.takeWhile isIdChar
                        rest).isEmpty = true
                    · rw [scanMentions_emptyRun rest ds hdw hre] at hs
                      exact codeTokenForm_cons _ (ih _ hlen hs)
                    · refine ⟨[], List.takeWhile isIdChar rest, ds, ?_, ?_, ?_⟩
                      · have : rest = List.takeWhile isIdChar rest ++
                            '>' :: ds := by
                          conv_lhs => rw [← List.takeWhile_append_dropWhile
                            isIdChar rest]
                          rw [hdw]
                        rw [List.nil_append]
                        simp only [List.append_assoc, List.cons_append]
                        rw [← this]
                      · intro hrun
                        rw [hrun] at hre
                        simp at hre
                      · intro x hx
                        exact List.mem_takeWhile_imp hx
                  · rw [scanMentions_noClose rest (by
                      intro t h
                      rw [h] at hdw
                      injection hdw with e1 e2
                      exact hgt e1.symm)] at hs
                    exact codeTokenForm_cons _ (ih _ hlen hs)
            · rw [hrst, scanMentions_cons_ne c rest hc, ← hrst] at hs
              exact codeTokenForm_cons _ (ih _ hlen hs)
          · rw [scanMentions_cons_notAU c _ hnsh] at hs
            exact codeTokenForm_cons _ (ih _ hlen hs)

/-! ### The mined blocking set matches its specification -/

theorem mem_allPairsOf (ms : List String) (p : String × String) :
    p ∈ allPairsOf ms ↔
      ∃ (i j : Nat) (hi : i < ms.length) (hj : j < ms.length),
        i < j ∧ p = pairKey ms[i] ms[j] := by
  induction ms with
  | nil =>
      constructor
      · intro h
        cases h
      · rintro ⟨i, j, hi, -, -, -⟩
        cases hi
  | cons x xs ih =>
      unfold allPairsOf
      rw [List.mem_append]
      constructor
      · intro h
        rcases h with h | h
        · rw [List.mem_map] at h
          obtain ⟨y, hy, hpy⟩ := h
          obtain ⟨j, hj, hyj⟩ := List.mem_iff_getElem.mp hy
          refine ⟨0, j + 1, by simp, by simpa using hj, Nat.succ_pos j, ?_⟩
          rw [← hpy, ← hyj]
          rfl
        · obtain ⟨i, j, hi, hj, hij, hp⟩ := (ih).mp h
          refine ⟨i + 1, j + 1, by simpa using hi, by simpa using hj,
            by omega, ?_⟩
          rw [hp]
          rfl
      · rintro ⟨i, j, hi, hj, hij, hp⟩
        cases i with
        | zero =>
            left
            rw [List.mem_map]
            cases j with
            | zero => omega
            | succ j2 =>
                have hj2 : j2 < xs.length := by simpa using hj
                refine ⟨xs.get ⟨j2, hj2⟩, List.get_mem xs j2 hj2, ?_⟩
                rw [hp]
                rfl
        | succ i2 =>
            right
            cases j with
            | zero => omega
            | succ j2 =>
                apply (ih).mpr
                refine ⟨i2, j2, by simpa using hi, by simpa using hj,
                  by omega, ?_⟩
                rw [hp]
                rfl

theorem mem_specLinePairs (line : List Char) (p : String × String) :
    p ∈ specLinePairs line ↔
      ∃ (i j : Nat) (hi : i < (scanMentions line).length)
        (hj : j < (scanMentions line).length),
        i < j ∧ p = pairKey (scanMentions line)[i]
          (scanMentions line)[j] := by
  unfold specLinePairs
  rw [Finset.mem_image]
  constructor
  · rintro ⟨⟨i, j⟩, hmem, hp⟩
    rw [Finset.mem_filter, Finset.mem_product, Finset.mem_range,
      Finset.mem_range] at hmem
    obtain ⟨⟨hi, hj⟩, hij⟩ := hmem
    refine ⟨i, j, hi, hj, hij, ?_⟩
    rw [← hp, List.getD_eq_getElem _ _ hi, List.getD_eq_getElem _ _ hj]
  · rintro ⟨i, j, hi, hj, hij, hp⟩
    refine ⟨(i, j), ?_, ?_⟩
    · rw [Finset.mem_filter, Finset.mem_product, Finset.mem_range,
        Finset.mem_range]
      exact ⟨⟨hi, hj⟩, hij⟩
    · rw [List.getD_eq_getElem _ _ hi, List.getD_eq_getElem _ _ hj]
      exact hp.symm

theorem linePairs_toFinset (line : List Char) :
    (linePairs line).toFinset = specLinePairs line := by
  unfold linePairs
  by_cases h2 : 2 ≤ (scanMentions line).length
  · rw [if_pos h2]
    apply Finset.ext
    intro p
    rw [List.mem_toFinset, mem_allPairsOf, mem_specLinePairs]
  · rw [if_neg h2]
    rw [List.toFinset_nil]
    apply Eq.symm
    rw [Finset.eq_empty_iff_forall_not_mem]
    intro p hp
    obtain ⟨i, j, hi, hj, hij, -⟩ := (mem_specLinePairs line p).mp hp
    omega

theorem flatMap_linePairs_toFinset (lines : List (List Char)) :
    ((lines.flatMap (fun line => linePairs line)).toFinset) =
      (lines.map specLinePairs).foldr (· ∪ ·) ∅ := by
  induction lines with
  | nil => rfl
  | cons line rest ih =>
      rw [List.flatMap_cons, List.toFinset_append, ih, List.map_cons,
        List.foldr_cons, linePairs_toFinset]

theorem mineBlockedPairs_eq_specMine (messages : List String) :
    mineBlockedPairs messages = specMine messages := by
  unfold mineBlockedPairs minePairsList specMine
  induction messages with
  | nil => rfl
  | cons msg rest ih =>
      rw [List.flatMap_cons, List.toFinset_append, List.foldr_cons, ih]
      by_cases hm : hasMarker msg
      · rw [if_pos hm, if_pos hm, flatMap_linePairs_toFinset]
      · rw [if_neg hm, if_neg hm, List.toFinset_nil, Finset.empty_union]

/-! ### The dictionary keeps the last record per id -/

theorem find?_pred_congr {p q : Member → Bool} :
    ∀ l : List Member, (∀ x ∈ l, p x = q x) → l.find? p = l.find? q := by
  intro l
  induction l with
  | nil => intro _; rfl
  | cons a rest ih =>
      intro h
      have ha := h a (List.mem_cons_self _ _)
      by_cases hp : p a = true
      · rw [List.find?_cons_of_pos _ hp, List.find?_cons_of_pos _ (ha ▸ hp)]
      · rw [List.find?_cons_of_neg _ hp, List.find?_cons_of_neg _ (ha ▸ hp)]
        exact ih (fun x hx => h x (List.mem_cons_of_mem _ hx))

theorem buildStep_find? (acc : List Member) (m : Member) (i : String) :
    (if acc.any (fun x => x.id == m.id) then
        acc.map (fun x => if x.id == m.id then m else x)
      else acc ++ [m]).find? (fun x => x.id == i) =
      if m.id == i then some m
      else acc.find? (fun x => x.id == i) := by
  by_cases hany : acc.any (fun x => x.id == m.id) = true
  · rw [if_pos hany, List.find?_map]
    have hcongr : acc.find?
        ((fun x : Member => x.id == i) ∘ (fun x => if x.id == m.id then m else x)) =
        acc.find?
          (fun x => (if x.id == m.id then (m.id == i) else (x.id == i) : Bool)) := by
      apply find?_pred_congr
      intro x _
      simp only [Function.comp_apply]
      by_cases hx : (x.id == m.id) = true
      · rw [if_pos hx, if_pos hx]
      · rw [if_neg hx, if_neg hx]
    rw [hcongr]
    by_cases hmi : (m.id == i) = true
    · have hcongr2 : acc.find?
          (fun x => (if x.id == m.id then (m.id == i) else (x.id == i) : Bool)) =
          acc.find? (fun x => x.id == m.id) := by
        apply find?_pred_congr
        intro x _
        by_cases hx : (x.id == m.id) = true
        · rw [if_pos hx, hx, hmi]
        · rw [if_neg hx]
          have hxi : (x.id == i) = false := by
            by_contra hxi2
            rw [Bool.not_eq_false] at hxi2
            apply hx
            rw [eq_of_beq hxi2, eq_of_beq hmi]
            exact beq_self_eq_true i
          rw [hxi]
          simp only [Bool.not_eq_true] at hx
          rw [hx]
      rw [hcongr2]
      rw [List.any_eq_true] at hany
      obtain ⟨x, hx, hxid⟩ := hany
      cases hf : acc.find? (fun x => x.id == m.id) with
      | none =>
          exfalso
          have := List.find?_eq_none.mp hf x hx
          simp [hxid] at this
      | some y =>
          have hy : (y.id == m.id) = true :=
            @List.find?_some Member (fun x => x.id == m.id) y acc hf
          rw [if_pos hmi, Option.map_some', if_pos hy]
    · have hcongr3 : acc.find?
          (fun x => (if x.id == m.id then (m.id == i) else (x.id == i) : Bool)) =
          acc.find? (fun x => x.id == i) := by
        apply find?_pred_congr
        intro x _
        by_cases hx : (x.id == m.id) = true
        · rw [if_pos hx]
          have he : (x.id == i) = (m.id == i) := by
            rw [eq_of_beq hx]
          rw [he]
        · rw [if_neg hx]
      rw [hcongr3, if_neg hmi]
      cases hf : acc.find? (fun x => x.id == i) with
      | none => rfl
      | some y =>
          have hy : (y.id == i) = true :=
            @List.find?_some Member (fun x => x.id == i) y acc hf
          rw [Option.map_some']
          have hyne : (y.id == m.id) = false := by
            by_contra hcon
            rw [Bool.not_eq_false] at hcon
            exact hmi (by rw [← eq_of_beq hcon]; exact hy)
          rw [if_neg (by rw [hyne]; exact Bool.false_ne_true)]
  · rw [if_neg hany, List.find?_append]
    by_cases hmi : (m.id == i) = true
    · have hnone : acc.find? (fun x => x.id == i) = none := by
        rw [List.find?_eq_none]
        intro x hx hxi
        apply hany
        rw [List.any_eq_true]
        exact ⟨x, hx, by rw [eq_of_beq hxi, ← eq_of_beq hmi]; simp⟩
      rw [hnone, if_pos hmi,
        @List.find?_cons_of_pos Member (fun x => x.id == i) m [] hmi]
      rfl
    · rw [if_neg hmi,
        @List.find?_cons_of_neg Member (fun x => x.id == i) m [] hmi,
        List.find?_nil, Option.or_none]

theorem build_foldl_find? (l : List Member) :
    ∀ (acc : List Member) (i : String),
      (l.foldl
          (fun acc m =>
            if acc.any (fun x => x.id == m.id) then
              acc.map (fun x => if x.id == m.id then m else x)
            else acc ++ [m])
          acc).find? (fun m => m.id == i) =
        (l.reverse.find? (fun m => m.id == i)).or
          (acc.find? (fun m => m.id == i)) := by
  induction l with
  | nil =>
      intro acc i
      simp
  | cons m rest ih =>
      intro acc i
      rw [List.foldl_cons, ih _ i, buildStep_find? acc m i,
        List.reverse_cons, List.find?_append]
      by_cases hmi : (m.id == i) = true
      · rw [if_pos hmi,
          @List.find?_cons_of_pos Member (fun x => x.id == i) m [] hmi,
          Option.or_assoc]
        rfl
      · rw [if_neg hmi,
          @List.find?_cons_of_neg Member (fun x => x.id == i) m [] hmi,
          List.find?_nil, Option.or_none]

theorem buildMemberById_find? (members : List Member) (i : String) :
    (buildMemberById members).find? (fun m => m.id == i) =
      lastRecord members i := by
  unfold buildMemberById lastRecord
  rw [build_foldl_find? members [] i]
  rw [List.find?_nil, Option.or_none]

theorem getMember_lastRecord (members : List Member) (i : String) :
    getMember (buildMemberById members) i =
      (lastRecord members i).getD ⟨i, ""⟩ := by
  unfold getMember
  rw [buildMemberById_find? members i]
  cases lastRecord members i with
  | some m => rfl
  | none => rfl

/-! ### The claims -/

/-- Claim C1 counterexample: on a single-member input `create_pairs` returns
no groups at all, so the member appears in no returned group and the output
is not a partition of the input member set. -/
theorem create_pairs_singleton_cex :
    create_pairs [Member.mk "UA" "Ann"] ∅ (fun _ => 0) = [] ∧
      ¬∃ g ∈ create_pairs [Member.mk "UA" "Ann"] ∅ (fun _ => 0),
        Member.mk "UA" "Ann" ∈ g := by
  refine ⟨by decide, ?_⟩
  rintro ⟨g, hg, -⟩
  rw [show create_pairs [Member.mk "UA" "Ann"] ∅ (fun _ => 0) = []
    from by decide] at hg
  cases hg

/-- Claim C1 (amended): for every input member list with at least two
distinct member ids and every blocking set, under every draw stream the
groups returned by `create_pairs` form a partition of the (deduplicated)
member set — each distinct member appears exactly once across the groups —
and every group has size 1, 2, or 3. -/
theorem create_pairs_partition (members : List Member)
    (blocked : Finset (String × String)) (R : Nat → Nat)
    (h2 : 2 ≤ (buildMemberById members).length) :
    (create_pairs members blocked R).flatten.Perm (buildMemberById members) ∧
      ∀ g ∈ create_pairs members blocked R,
        1 ≤ g.length ∧ g.length ≤ 3 := by
  constructor
  · unfold create_pairs
    exact partition_main members blocked (shuffledPairs members blocked R)
      (R (allowedPairs (memberIds members) blocked).length)
      (shuffledPairs_perm members blocked R) h2
  · intro g hg
    unfold create_pairs at hg
    rcases createPairsWith_sizes members (shuffledPairs members blocked R)
      (R (allowedPairs (memberIds members) blocked).length) g hg with h | h
    · omega
    · omega

/-- Claim C1 witness: the partition property applied to a concrete
two-member input. -/
theorem create_pairs_partition_witness :
    2 ≤ (buildMemberById [Member.mk "U1" "Ann", Member.mk "U2" "Bob"]).length ∧
      (create_pairs [Member.mk "U1" "Ann", Member.mk "U2" "Bob"] ∅
          (fun _ => 0)).flatten.Perm
        (buildMemberById [Member.mk "U1" "Ann", Member.mk "U2" "Bob"]) :=
  ⟨by decide,
   (create_pairs_partition [Member.mk "U1" "Ann", Member.mk "U2" "Bob"] ∅
     (fun _ => 0) (by decide)).1⟩

/-- Claim C2: the blocking set produced by the mining loop equals exactly
the union, over messages containing a marker phrase (case-insensitively)
and over each line of such a message, of all canonical unordered pairs of
mention occurrences at distinct positions in that line; in particular a
3-mention line contributes all 3 pairwise keys, a line with at most one
mention contributes nothing, and a message without a marker phrase
contributes nothing even if it contains mentions. -/
theorem mineBlockedPairs_correct :
    (∀ messages, mineBlockedPairs messages = specMine messages) ∧
      mineBlockedPairs ["Random coffee pairings:\n1. <@U1> & <@U2>"] =
        {("U1", "U2")} ∧
      mineBlockedPairs ["random coffee\n1. <@U1>, <@U2> & <@U3> (trio)"] =
        {("U1", "U2"), ("U1", "U3"), ("U2", "U3")} ∧
      mineBlockedPairs ["hello <@U1> and <@U2>"] = ∅ ∧
      mineBlockedPairs ["Random coffee pairings:\n1. <@U1>"] = ∅ :=
  ⟨mineBlockedPairs_eq_specMine, by decide, by decide, by decide, by decide⟩

/-- Claim C4 counterexample: a missing channel and an API error both make
`fetch_recent_pairs` return the empty blocking set — indistinguishable from
genuinely empty history — rather than signaling an explicit failure; the
same history mined directly is nonempty. -/
theorem fetch_recent_pairs_silent_cex :
    fetch_recent_pairs none
        (Except.ok ["Random coffee pairings:\n1. <@U1> & <@U2>"]) = ∅ ∧
      fetch_recent_pairs (some "C042")
        (Except.error "ratelimited") = ∅ ∧
      mineBlockedPairs ["Random coffee pairings:\n1. <@U1> & <@U2>"] ≠ ∅ :=
  ⟨rfl, rfl, by decide⟩

/-- Claim C4 (amended): when history retrieval fails — the channel is not
found, or the fetch raises an API error — `fetch_recent_pairs` logs and
returns the empty blocking set; no failure is signaled to the caller. -/
theorem fetch_recent_pairs_failure_empty :
    (∀ history, fetch_recent_pairs none history = ∅) ∧
      ∀ c e, fetch_recent_pairs (some c) (Except.error e) = ∅ :=
  ⟨fun _ => rfl, fun _ _ => rfl⟩

/-- Claim C3: whenever two or more members remain unmatched after the
greedy pass, the constructor's output is the greedy groups followed by
`residualResolve` of the residual pool — the residual members paired off
consecutively in their original relative order by a map that never consults
the blocking set, with an odd pool's last member appended to the last
residual-formed group as a trio; the residual groups flatten back to
exactly the residual pool and have size 2 or 3.  Additionally, on the
concrete 6-member input whose first 5 members are mutually blocked but all
unblocked against the 6th, the constructor still returns a complete
partition under every draw stream. -/
theorem createPairsWith_residual_fallback (members : List Member)
    (perm : List (String × String)) (k : Nat)
    (h : 2 ≤ (unpairedMembers members perm).length) :
    (createPairsWith members perm k =
        (greedyPart members perm).1 ++
          residualResolve (unpairedMembers members perm) ∧
      (residualResolve (unpairedMembers members perm)).flatten =
        unpairedMembers members perm ∧
      ∀ g ∈ residualResolve (unpairedMembers members perm),
        g.length = 2 ∨ g.length = 3) ∧
      ∀ R : Nat → Nat,
        (create_pairs
            [Member.mk "U1" "a", Member.mk "U2" "b", Member.mk "U3" "c",
              Member.mk "U4" "d", Member.mk "U5" "e", Member.mk "U6" "f"]
            {("U1", "U2"), ("U1", "U3"), ("U1", "U4"), ("U1", "U5"),
              ("U2", "U3"), ("U2", "U4"), ("U2", "U5"), ("U3", "U4"),
              ("U3", "U5"), ("U4", "U5")} R).flatten.Perm
          [Member.mk "U1" "a", Member.mk "U2" "b", Member.mk "U3" "c",
            Member.mk "U4" "d", Member.mk "U5" "e", Member.mk "U6" "f"] := by
  constructor
  · exact ⟨createPairsWith_residual members perm k h,
      residualResolve_flatten h, residualResolve_sizes h⟩
  · intro R
    unfold create_pairs
    have h6 := partition_main
      [Member.mk "U1" "a", Member.mk "U2" "b", Member.mk "U3" "c",
        Member.mk "U4" "d", Member.mk "U5" "e", Member.mk "U6" "f"]
      {("U1", "U2"), ("U1", "U3"), ("U1", "U4"), ("U1", "U5"),
        ("U2", "U3"), ("U2", "U4"), ("U2", "U5"), ("U3", "U4"),
        ("U3", "U5"), ("U4", "U5")}
      (shuffledPairs
        [Member.mk "U1" "a", Member.mk "U2" "b", Member.mk "U3" "c",
          Member.mk "U4" "d", Member.mk "U5" "e", Member.mk "U6" "f"]
        {("U1", "U2"), ("U1", "U3"), ("U1", "U4"), ("U1", "U5"),
          ("U2", "U3"), ("U2", "U4"), ("U2", "U5"), ("U3", "U4"),
          ("U3", "U5"), ("U4", "U5")} R)
      (R (allowedPairs (memberIds
        [Member.mk "U1" "a", Member.mk "U2" "b", Member.mk "U3" "c",
          Member.mk "U4" "d", Member.mk "U5" "e", Member.mk "U6" "f"])
        {("U1", "U2"), ("U1", "U3"), ("U1", "U4"), ("U1", "U5"),
          ("U2", "U3"), ("U2", "U4"), ("U2", "U5"), ("U3", "U4"),
          ("U3", "U5"), ("U4", "U5")}).length)
      (shuffledPairs_perm _ _ R) (by decide)
    rw [show buildMemberById
      [Member.mk "U1" "a", Member.mk "U2" "b", Member.mk "U3" "c",
        Member.mk "U4" "d", Member.mk "U5" "e", Member.mk "U6" "f"] =
      [Member.mk "U1" "a", Member.mk "U2" "b", Member.mk "U3" "c",
        Member.mk "U4" "d", Member.mk "U5" "e", Member.mk "U6" "f"]
      from by decide] at h6
    exact h6

/-- Claim C3 witness: the two-member input whose only pair is blocked — the
whole pool is residual, and the fallback still pairs the two together. -/
theorem createPairsWith_residual_fallback_witness :
    2 ≤ (unpairedMembers [Member.mk "U1" "Ann", Member.mk "U2" "Bob"]
        (shuffledPairs [Member.mk "U1" "Ann", Member.mk "U2" "Bob"]
          {("U1", "U2")} (fun _ => 0))).length ∧
      create_pairs [Member.mk "U1" "Ann", Member.mk "U2" "Bob"]
          {("U1", "U2")} (fun _ => 0) =
        [[Member.mk "U1" "Ann", Member.mk "U2" "Bob"]] := by
  refine ⟨by decide, ?_⟩
  have h := (createPairsWith_residual_fallback
    [Member.mk "U1" "Ann", Member.mk "U2" "Bob"]
    (shuffledPairs [Member.mk "U1" "Ann", Member.mk "U2" "Bob"]
      {("U1", "U2")} (fun _ => 0)) 0 (by decide)).1.1
  unfold create_pairs
  rw [h]
  decide

/-- Claim C5: for every member list with fewer than 2 entries, the
`run_pairing_test` entry point fails with the not-enough-members error
instead of producing a pairing. -/
theorem run_pairing_test_insufficient (members : List Member)
    (blocked : Finset (String × String)) (R : Nat → Nat)
    (h : members.length < 2) :
    run_pairing_test members blocked R =
      Except.error ("Not enough members to create pairs (found " ++
        toString members.length ++ ")") := by
  unfold run_pairing_test
  rw [if_pos h]

/-- Claim C5 witness: the 1-member input yields the failure. -/
theorem run_pairing_test_insufficient_witness :
    ([Member.mk "U1" "Ann"] : List Member).length < 2 ∧
      run_pairing_test [Member.mk "U1" "Ann"] ∅ (fun _ => 0) =
        Except.error ("Not enough members to create pairs (found " ++
          toString ([Member.mk "U1" "Ann"] : List Member).length ++ ")") :=
  ⟨by decide, run_pairing_test_insufficient [Member.mk "U1" "Ann"] ∅
    (fun _ => 0) (by decide)⟩

/-- Claim C6 (code-bug evaluation): when the greedy pass leaves exactly one
member and no committed group exists, the member is silently dropped
instead of being returned as a solo group: the 1-member input yields no
groups, and through the entry point a 2-entry list sharing one id also
yields no groups. -/
theorem create_pairs_drops_lone_member :
    create_pairs [Member.mk "U1" "Solo"] ∅ (fun _ => 0) = [] ∧
      run_pairing_test [Member.mk "U7" "Old", Member.mk "U7" "New"] ∅
          (fun _ => 0) =
        Except.ok ([], format_pairs_preview []) :=
  ⟨by decide, by rfl⟩

/-- Claim C7: with an empty blocking set and distinct ids, every 4-member
input yields exactly 2 groups of size 2 whose union is the input, and every
5-member input yields groups of size at most 3 covering all 5 members with
no omission — the greedy pass over the complete allowed-pair graph leaves
at most one member unmatched. -/
theorem create_pairs_four_five :
    (∀ (members : List Member) (R : Nat → Nat),
        members.length = 4 → (members.map (fun m => m.id)).Nodup →
        (create_pairs members ∅ R).length = 2 ∧
          (∀ g ∈ create_pairs members ∅ R, g.length = 2) ∧
          (create_pairs members ∅ R).flatten.Perm members) ∧
      ∀ (members : List Member) (R : Nat → Nat),
        members.length = 5 → (members.map (fun m => m.id)).Nodup →
        (create_pairs members ∅ R).flatten.Perm members ∧
          (∀ g ∈ create_pairs members ∅ R, g.length ≤ 3) ∧
          (unpairedMembers members (shuffledPairs members ∅ R)).length ≤ 1 := by
  constructor
  · intro members R hlen hnodup
    have hmb : buildMemberById members = members :=
      buildMemberById_eq_self members hnodup
    have hp := shuffledPairs_perm members ∅ R
    have hle := unpaired_le_one_of_empty_blocked members
      (shuffledPairs members ∅ R) hp
    have heven := greedyPart_taken_even members (shuffledPairs members ∅ R)
    have htot := taken_length_add_unpaired members ∅
      (shuffledPairs members ∅ R) hp
    rw [hmb, hlen] at htot
    have hnil : unpairedMembers members (shuffledPairs members ∅ R) = [] :=
      List.length_eq_zero.mp (by omega)
    have hres : create_pairs members ∅ R =
        (greedyPart members (shuffledPairs members ∅ R)).1 := by
      unfold create_pairs
      exact createPairsWith_of_unpaired_nil members _ _ hnil
    have hsz : ∀ g ∈ (greedyPart members (shuffledPairs members ∅ R)).1,
        g.length = 2 :=
      greedyGo_sizes (buildMemberById members) _ [] []
        (by intro g hg; cases hg)
    have hfl := greedyPart_flatten members (shuffledPairs members ∅ R)
    have hflen : (greedyPart members
        (shuffledPairs members ∅ R)).1.flatten.length = 4 := by
      rw [hfl, List.length_map]
      rw [hnil] at htot
      simp only [List.length_nil] at htot
      omega
    have hcount := flatten_length_two _ hsz
    refine ⟨?_, ?_, ?_⟩
    · rw [hres]
      omega
    · intro g hg
      rw [hres] at hg
      exact hsz g hg
    · have hpm := partition_main members ∅ (shuffledPairs members ∅ R)
        (R (allowedPairs (memberIds members) ∅).length) hp
        (by rw [hmb, hlen]; omega)
      rw [hmb] at hpm
      exact hpm
  · intro members R hlen hnodup
    have hmb : buildMemberById members = members :=
      buildMemberById_eq_self members hnodup
    have hp := shuffledPairs_perm members ∅ R
    have hle := unpaired_le_one_of_empty_blocked members
      (shuffledPairs members ∅ R) hp
    refine ⟨?_, ?_, hle⟩
    · have hpm := partition_main members ∅ (shuffledPairs members ∅ R)
        (R (allowedPairs (memberIds members) ∅).length) hp
        (by rw [hmb, hlen]; omega)
      rw [hmb] at hpm
      exact hpm
    · intro g hg
      unfold create_pairs at hg
      rcases createPairsWith_sizes members (shuffledPairs members ∅ R)
        (R (allowedPairs (memberIds members) ∅).length) g hg with h | h
      · omega
      · omega

/-- Claim C7 witness: the concrete scenarios with 4 and 5 members and no
blocking. -/
theorem create_pairs_four_five_witness :
    (([Member.mk "U1" "a", Member.mk "U2" "b", Member.mk "U3" "c",
          Member.mk "U4" "d"] : List Member).length = 4 ∧
      (create_pairs [Member.mk "U1" "a", Member.mk "U2" "b",
          Member.mk "U3" "c", Member.mk "U4" "d"] ∅
        (fun _ => 0)).length = 2) ∧
      ([Member.mk "U1" "a", Member.mk "U2" "b", Member.mk "U3" "c",
          Member.mk "U4" "d", Member.mk "U5" "e"] : List Member).length = 5 ∧
        (create_pairs [Member.mk "U1" "a", Member.mk "U2" "b",
            Member.mk "U3" "c", Member.mk "U4" "d", Member.mk "U5" "e"] ∅
          (fun _ => 0)).flatten.Perm
          [Member.mk "U1" "a", Member.mk "U2" "b", Member.mk "U3" "c",
            Member.mk "U4" "d", Member.mk "U5" "e"] :=
  ⟨⟨by decide,
    (create_pairs_four_five.1 [Member.mk "U1" "a", Member.mk "U2" "b",
        Member.mk "U3" "c", Member.mk "U4" "d"] (fun _ => 0)
      (by decide) (by decide)).1⟩,
   by decide,
   (create_pairs_four_five.2 [Member.mk "U1" "a", Member.mk "U2" "b",
       Member.mk "U3" "c", Member.mk "U4" "d", Member.mk "U5" "e"]
     (fun _ => 0) (by decide) (by decide)).1⟩

/-- Claim C8: under the explicit draw-stream model of the `random` module,
every run of `create_pairs` coincides with the pure algorithm
`createPairsWith` applied at some permutation of the allowed-pair list and
some trio-placement draw — the shuffle and the trio choice are the only
randomness — and two runs over pointwise-equal draw streams (the same seed
state) produce identical group sequences. -/
theorem create_pairs_randomness :
    (∀ (members : List Member) (blocked : Finset (String × String))
        (R : Nat → Nat),
        ∃ (perm : List (String × String)) (k : Nat),
          perm.Perm (allowedPairs (memberIds members) blocked) ∧
            create_pairs members blocked R = createPairsWith members perm k) ∧
      ∀ (members : List Member) (blocked : Finset (String × String))
        (R1 R2 : Nat → Nat), (∀ i, R1 i = R2 i) →
          create_pairs members blocked R1 = create_pairs members blocked R2 := by
  constructor
  · intro members blocked R
    exact ⟨shuffledPairs members blocked R,
      R (allowedPairs (memberIds members) blocked).length,
      shuffledPairs_perm members blocked R, rfl⟩
  · intro members blocked R1 R2 h
    have hR : R1 = R2 := funext h
    rw [hR]

/-- Claim C8 witness: two syntactically different but pointwise-equal draw
streams produce the same pairing on a concrete input. -/
theorem create_pairs_randomness_witness :
    (∀ i : Nat, (fun j : Nat => j + 0) i = (fun j : Nat => j) i) ∧
      create_pairs [Member.mk "U1" "Ann", Member.mk "U2" "Bob"] ∅
          (fun j => j + 0) =
        create_pairs [Member.mk "U1" "Ann", Member.mk "U2" "Bob"] ∅
          (fun j => j) :=
  ⟨fun _ => rfl,
   create_pairs_randomness.2 [Member.mk "U1" "Ann", Member.mk "U2" "Bob"] ∅
     (fun j => j + 0) (fun j => j) (fun _ => rfl)⟩

/-- Claim C9 counterexample: the line `<@ab>` contains the claimed token
form — `<@`, a nonempty alphanumeric id, `>` — yet the scanner extracts no
mention from it (the pattern requires a leading `U` and uppercase
alphanumerics). -/
theorem scanMentions_claim_cex :
    claimTokenForm ("<@ab>".toList) ∧ scanMentions ("<@ab>".toList) = [] := by
  constructor
  · refine ⟨[], ['a', 'b'], [], by decide, by decide, ?_⟩
    intro c hc
    fin_cases hc <;> decide
  · decide

/-- Claim C9 (amended): the scanner extracts a mention from a line exactly
when the line contains the token form `<@` followed by `U`, one or more
uppercase-alphanumeric characters, and `>`; malformed lines contribute zero
mentions (the scanner is total, so no error is possible). -/
theorem scanMentions_token_iff (l : List Char) :
    scanMentions l ≠ [] ↔ codeTokenForm l := by
  constructor
  · intro h
    exact token_of_scanMentions_ne_nil l.length l (Nat.le_refl _) h
  · intro h
    exact scanMentions_ne_nil_of_token l.length l (Nat.le_refl _) h

/-- Claim C10: duplicate entries sharing an id are silently deduplicated —
every member appearing in any output group is a record of the id
dictionary, the dictionary resolves each id to the last entry carrying it,
output ids are pairwise distinct, and the partition guarantee holds over
the deduplicated member set (of at least two distinct ids), not the raw
input list. -/
theorem create_pairs_dedup (members : List Member)
    (blocked : Finset (String × String)) (R : Nat → Nat) :
    (∀ g ∈ create_pairs members blocked R, ∀ m ∈ g,
        m ∈ buildMemberById members) ∧
      (∀ i, getMember (buildMemberById members) i =
        (lastRecord members i).getD ⟨i, ""⟩) ∧
      ((create_pairs members blocked R).flatten.map (fun m => m.id)).Nodup ∧
      (2 ≤ (buildMemberById members).length →
        (create_pairs members blocked R).flatten.Perm
          (buildMemberById members)) := by
  have hp := shuffledPairs_perm members blocked R
  refine ⟨?_, fun i => getMember_lastRecord members i, ?_, ?_⟩
  · intro g hg m hm
    have hmem : m ∈ (create_pairs members blocked R).flatten :=
      List.mem_flatten.mpr ⟨g, hg, hm⟩
    unfold create_pairs at hmem
    rcases flatten_cases members (shuffledPairs members blocked R)
      (R (allowedPairs (memberIds members) blocked).length) with hc | ⟨-, -, hres⟩
    · rw [hc.mem_iff] at hmem
      rcases List.mem_append.mp hmem with h1 | h1
      · rw [greedyPart_flatten members (shuffledPairs members blocked R)]
          at h1
        rw [List.mem_map] at h1
        obtain ⟨t, ht, hgm⟩ := h1
        rw [← hgm]
        exact getMember_mem _ t
          (greedyPart_taken_mem members blocked _ hp t ht)
      · unfold unpairedMembers at h1
        rw [List.mem_map] at h1
        obtain ⟨t, ht, hgm⟩ := h1
        rw [← hgm]
        exact getMember_mem _ t (List.mem_of_mem_filter ht)
    · rw [hres] at hmem
      cases hmem
  · unfold create_pairs
    exact createPairsWith_ids_nodup members blocked
      (shuffledPairs members blocked R)
      (R (allowedPairs (memberIds members) blocked).length) hp
  · intro h2
    unfold create_pairs
    exact partition_main members blocked (shuffledPairs members blocked R)
      (R (allowedPairs (memberIds members) blocked).length) hp h2

/-- Claim C10 witness: a 3-entry list where id `U1` appears twice — the
dictionary keeps the later record, the output covers the two distinct ids
exactly once each, and the earlier duplicate record appears nowhere. -/
theorem create_pairs_dedup_witness :
    2 ≤ (buildMemberById [Member.mk "U1" "Old", Member.mk "U2" "Bea",
        Member.mk "U1" "New"]).length ∧
      (create_pairs [Member.mk "U1" "Old", Member.mk "U2" "Bea",
          Member.mk "U1" "New"] ∅ (fun _ => 0)).flatten.Perm
        (buildMemberById [Member.mk "U1" "Old", Member.mk "U2" "Bea",
          Member.mk "U1" "New"]) ∧
      getMember (buildMemberById [Member.mk "U1" "Old", Member.mk "U2" "Bea",
          Member.mk "U1" "New"]) "U1" = Member.mk "U1" "New" :=
  ⟨by decide,
   (create_pairs_dedup [Member.mk "U1" "Old", Member.mk "U2" "Bea",
       Member.mk "U1" "New"] ∅ (fun _ => 0)).2.2.2 (by decide),
   by decide⟩
